import Mathlib

/-!
Shallow embedding of the slimchain repository components under verification:

* `src/slimchain-chain/src/consensus/pow.rs` — PoW difficulty re-targeting
  (`compute_diff`), nonce threshold (`nonce_is_valid`), `verify_consensus`.
* `src/slimchain-merkle-trie/src/partial_trie/{branch.rs, prune.rs}` — partial
  hexary Patricia trie: branch nodes with memoized digests, value lookup,
  `prune_key`.
* `src/slimchain-tx-state/src/partial_trie/diff.rs` — `merge_acc_trie_diff`,
  `merge_tx_trie_diff`.
* `src/slimchain-tx-engine/src/lib.rs` — `push_task` / `pop_result` /
  worker `run` counter discipline.
* `src/slimchain-chain/src/behavior/commit.rs` — `commit_block_storage_node`.

Conventions: `H256` is modelled as `Nat` (zero hash = `0`), `u64`/`usize`
as `Nat` with explicit `% 2^64` wrapping where Rust wraps, `i64` as `Int`
with explicit two's-complement wrapping, Rust `Result`/panics as
`Except String`.  External hash primitives (blake2b, trie node hashes) are
parameters, so every theorem holds for an arbitrary hash scheme.
-/

/-! ## PoW consensus (`src/slimchain-chain/src/consensus/pow.rs`) -/

/-- Block header.  Only the timestamp participates in `compute_diff`; the
timestamp is modelled in whole seconds (chrono `num_seconds`). -/
structure PowBlockHeader where
  timeStamp : Int
deriving DecidableEq

/-- `Block { header, diff: u64, nonce }` from pow.rs.  `diff` is a `u64`
(modelled as `Nat`, values `< 2^64`); the nonce participates only through the
block digest, which is an abstract parameter, so it is kept as a `Nat`. -/
structure PowBlock where
  header : PowBlockHeader
  diff : Nat
  nonce : Nat
deriving DecidableEq

/-- Reinterpret a `u64` bit pattern as an `i64` (Rust `as i64`). -/
def toI64 (n : Nat) : Int :=
  if n < 2 ^ 63 then (n : Int) else (n : Int) - 2 ^ 64

/-- Wrap an integer into the `i64` range (two's-complement), the result of any
Rust release-mode `i64` arithmetic op. -/
def wrapI64 (x : Int) : Int :=
  ((x + 2 ^ 63) % 2 ^ 64) - 2 ^ 63

/-- Cast an integer to `u64` (Rust `as u64`): value modulo `2^64`. -/
def u64OfInt (x : Int) : Nat :=
  (x % 2 ^ 64).toNat

/-- `compute_diff` from pow.rs:
```
let prev_diff = prev_blk.diff as i64;
let delta = prev_diff / 2048;
let time_span = (time_stamp - prev_blk.header.time_stamp).num_seconds() as i64;
let coeff = core::cmp::max(1 - time_span / 10, -99);
(prev_diff + delta * coeff) as u64
```
`i64` division truncates toward zero (`Int.tdiv`); the release-mode `+` and
`*` wrap (`wrapI64`); the divisions act on unwrapped inputs, so they are
plain `tdiv`. -/
def computeDiff (timeStamp : Int) (prevBlk : PowBlock) : Nat :=
  let prevDiff : Int := toI64 prevBlk.diff
  let delta : Int := Int.tdiv prevDiff 2048
  let timeSpan : Int := timeStamp - prevBlk.header.timeStamp
  let coeff : Int := max (1 - Int.tdiv timeSpan 10) (-99)
  u64OfInt (wrapI64 (prevDiff + wrapI64 (delta * coeff)))

/-- `U256::MAX`. -/
def u256Max : Nat := 2 ^ 256 - 1

/-- `cfg!(debug_assertions)`: the embedding models the release build, where
the nonce threshold is actually checked. -/
def debugAssertions : Bool := false

/-- `nonce_is_valid` from pow.rs, parametrized by the (external blake2b)
block digest function `d`:
```
if cfg!(debug_assertions) { return true; }
let hash = U256::from(blk.to_digest().to_fixed_bytes());
hash <= U256::MAX / blk.diff
```
Note Rust `U256` division panics when `blk.diff == 0`; theorems below assume
`0 < blk.diff`, where `Nat` division agrees with `U256` division. -/
def nonceIsValid (d : PowBlock → Nat) (blk : PowBlock) : Bool :=
  if debugAssertions then true
  else decide (d blk ≤ u256Max / blk.diff)

/-- `verify_consensus` from pow.rs:
```
ensure!(blk.diff == compute_diff(blk.header.time_stamp, prev_blk), "Invalid difficult.");
ensure!(nonce_is_valid(blk), "Invalid nonce");
Ok(())
```
-/
def verifyConsensus (d : PowBlock → Nat) (blk prevBlk : PowBlock) :
    Except String Unit :=
  if blk.diff = computeDiff blk.header.timeStamp prevBlk then
    if nonceIsValid d blk then Except.ok () else Except.error "Invalid nonce"
  else
    Except.error "Invalid difficult."

/-! ## Partial Merkle trie (`src/slimchain-merkle-trie/src/partial_trie/`) -/

/-- A nibble (`U4`): index into the 16 children of a branch. -/
abbrev U4 := Fin 16

/-- External node-hash primitives (`crate::hash`): `leaf_hash`,
`extension_hash`, `branch_node_hash`.  All trie operations and theorems are
parametric in the scheme. -/
structure HashScheme where
  leafHash : List U4 → Nat → Nat
  extensionHash : List U4 → Nat → Nat
  branchHash : List (Option Nat) → Nat

mutual

/-- `SubTree` node variants of the partial trie (spec §3 `PartialTrie`):
`Hash` stub, `Leaf { nibbles, value_hash }`, `Extension { nibbles, child }`,
`Branch`.  `Arc` sharing is dropped: nodes are immutable values. -/
inductive SubTree : Type where
  | hash (h : Nat) : SubTree
  | leaf (nibbles : List U4) (valueHash : Nat) : SubTree
  | ext (nibbles : List U4) (child : SubTree) : SubTree
  | branch (node : BranchNode) : SubTree

/-- `BranchNode { children: [Option<Arc<SubTree>>; 16], node_hash: Cell<Option<H256>> }`
from branch.rs.  `nodeHash` is the memo cell's current content. -/
inductive BranchNode : Type where
  | mk (children : ChildList) (nodeHash : Option Nat) : BranchNode

/-- The 16-slot `[Option<Arc<SubTree>>; 16]` children array, as a first-order
list so that the mutual induction stays structural. -/
inductive ChildList : Type where
  | nil : ChildList
  | consNone (rest : ChildList) : ChildList
  | consSome (t : SubTree) (rest : ChildList) : ChildList

end

/-- Children array of a branch node. -/
def BranchNode.children : BranchNode → ChildList
  | .mk c _ => c

/-- Memo cell content of a branch node. -/
def BranchNode.nodeHash : BranchNode → Option Nat
  | .mk _ h => h

/-- `BranchNode::new(children)`: fresh node with an empty memo cell. -/
def BranchNode.new (children : ChildList) : BranchNode :=
  .mk children none

/-- Indexing into the children array (`children[index]`, always in range in
the source because the array has 16 slots and the index is a `U4`). -/
def ChildList.get : ChildList → Nat → Option SubTree
  | .nil, _ => none
  | .consNone _, 0 => none
  | .consSome t _, 0 => some t
  | .consNone rest, i + 1 => rest.get i
  | .consSome _ rest, i + 1 => rest.get i

/-- `BranchNode::get_child`. -/
def BranchNode.getChild (n : BranchNode) (index : U4) : Option SubTree :=
  n.children.get index.val

/-- Writing slot `i` of the children array
(`*node.get_child_mut(index) = v`). -/
def ChildList.set : ChildList → Nat → Option SubTree → ChildList
  | .nil, _, _ => .nil
  | .consNone rest, 0, none => .consNone rest
  | .consNone rest, 0, some t => .consSome t rest
  | .consSome _ rest, 0, none => .consNone rest
  | .consSome _ rest, 0, some t => .consSome t rest
  | .consNone rest, i + 1, v => .consNone (rest.set i v)
  | .consSome t rest, i + 1, v => .consSome t (rest.set i v)

mutual

/-- `SubTree::to_digest`: stub reports its stored hash; leaf and extension
hash their fields; branch defers to `BranchNode::to_digest`. -/
def SubTree.toDigest (hs : HashScheme) : SubTree → Nat
  | .hash h => h
  | .leaf nibbles valueHash => hs.leafHash nibbles valueHash
  | .ext nibbles child => hs.extensionHash nibbles (child.toDigest hs)
  | .branch node => node.toDigest hs

/-- `BranchNode::to_digest` (branch.rs lines 17–29), value returned: the memo
cell if set, otherwise `branch_node_hash` over the children digests.  (The
cell write performed by the source is modelled by `BranchNode.toDigestM`.) -/
def BranchNode.toDigest (hs : HashScheme) : BranchNode → Nat
  | .mk children nodeHash =>
    match nodeHash with
    | some h => h
    | none => hs.branchHash (children.digests hs)

/-- `children.iter().map(|c| c.as_ref().map(|n| n.to_digest()))`. -/
def ChildList.digests (hs : HashScheme) : ChildList → List (Option Nat)
  | .nil => []
  | .consNone rest => none :: rest.digests hs
  | .consSome t rest => some (t.toDigest hs) :: rest.digests hs

end

/-- `BranchNode::to_digest` with the `Cell` write made explicit: returns the
digest and the node with its memo cell updated, exactly as the source's
`self.node_hash.set(Some(h))`. -/
def BranchNode.toDigestM (hs : HashScheme) : BranchNode → Nat × BranchNode
  | .mk children nodeHash =>
    match nodeHash with
    | some h => (h, .mk children (some h))
    | none =>
      let h := hs.branchHash (children.digests hs)
      (h, .mk children (some h))

mutual

/-- Type invariant of the private `node_hash: Cell<Option<H256>>` field:
every memo cell in the tree is either empty or holds exactly the branch hash
of its children.  Every `BranchNode` the source constructs satisfies it
(`new` and deserialization start from `None`; only `to_digest` writes). -/
def SubTree.cacheOk (hs : HashScheme) : SubTree → Bool
  | .hash _ => true
  | .leaf _ _ => true
  | .ext _ child => child.cacheOk hs
  | .branch node => node.cacheOk hs

/-- Cache validity for a branch node and, recursively, its children. -/
def BranchNode.cacheOk (hs : HashScheme) : BranchNode → Bool
  | .mk children nodeHash =>
    (match nodeHash with
     | none => true
     | some h => h == hs.branchHash (children.digests hs)) &&
    children.cacheOk hs

/-- Cache validity for every materialized child. -/
def ChildList.cacheOk (hs : HashScheme) : ChildList → Bool
  | .nil => true
  | .consNone rest => rest.cacheOk hs
  | .consSome t rest => t.cacheOk hs && rest.cacheOk hs

end

mutual

/-- Rust `PartialEq` on `SubTree` (derived): structural comparison of the
variants, except that branch nodes compare via the custom `impl PartialEq for
BranchNode`, which ignores the memo cell. -/
def SubTree.beq : SubTree → SubTree → Bool
  | .hash h₁, .hash h₂ => h₁ == h₂
  | .leaf n₁ v₁, .leaf n₂ v₂ => n₁ == n₂ && v₁ == v₂
  | .ext n₁ c₁, .ext n₂ c₂ => n₁ == n₂ && c₁.beq c₂
  | .branch b₁, .branch b₂ => b₁.beq b₂
  | _, _ => false

/-- `impl PartialEq for BranchNode` (branch.rs lines 61–65):
`self.children == other.children` — the memo cell is ignored. -/
def BranchNode.beq : BranchNode → BranchNode → Bool
  | .mk c₁ _, .mk c₂ _ => c₁.beq c₂

/-- Pointwise comparison of children arrays. -/
def ChildList.beq : ChildList → ChildList → Bool
  | .nil, .nil => true
  | .consNone r₁, .consNone r₂ => r₁.beq r₂
  | .consSome t₁ r₁, .consSome t₂ r₂ => t₁.beq t₂ && r₁.beq r₂
  | _, _ => false

end

/-- A child retrieved from a children array is structurally smaller than the
array (termination measure for recursion through `getChild`). -/
theorem ChildList.sizeOf_get : ∀ (cl : ChildList) (i : Nat) (t : SubTree),
    cl.get i = some t → sizeOf t < sizeOf cl
  | .nil, i, t, h => by simp [ChildList.get] at h
  | .consNone rest, 0, t, h => by simp [ChildList.get] at h
  | .consSome t' rest, 0, t, h => by
    simp only [ChildList.get, Option.some.injEq] at h
    subst h
    simp only [ChildList.consSome.sizeOf_spec]
    omega
  | .consNone rest, i + 1, t, h => by
    simp only [ChildList.get] at h
    have := ChildList.sizeOf_get rest i t h
    simp only [ChildList.consNone.sizeOf_spec]
    omega
  | .consSome t' rest, i + 1, t, h => by
    simp only [ChildList.get] at h
    have := ChildList.sizeOf_get rest i t h
    simp only [ChildList.consSome.sizeOf_spec]
    omega

/-- Same bound through `BranchNode.getChild`. -/
theorem BranchNode.sizeOf_getChild {n : BranchNode} {i : U4} {t : SubTree}
    (h : n.getChild i = some t) : sizeOf t < sizeOf n := by
  cases n with
  | mk children nodeHash =>
    have := ChildList.sizeOf_get children i.val t h
    simp only [BranchNode.mk.sizeOf_spec]
    omega

/-- `Nibbles::strip_prefix`: if `pfx` is an initial segment of `key`, the
remaining key, else `None`. -/
def stripPfx (pfx key : List U4) : Option (List U4) :=
  if pfx.isPrefixOf key then some (key.drop pfx.length) else none

/-- `SubTree::value_hash`.  The `SubTree` dispatch lives in a file not under
`src/`; modelled from the spec: a `Hash` stub cannot resolve the value
(`NeedLoad`, returned as `Ok none`); a leaf resolves to its value when the
remaining key equals its nibbles and to `H256::zero` (absent) otherwise; an
extension strips its segment or resolves to `H256::zero` on mismatch.  The
branch case is `BranchNode::value_hash` from branch.rs (see
`BranchNode.valueHash`); an `Except.error` models a Rust panic. -/
def SubTree.valueHash : SubTree → List U4 → Except String (Option Nat)
  | .hash _, _ => Except.ok none
  | .leaf nibbles v, key =>
    if nibbles = key then Except.ok (some v) else Except.ok (some 0)
  | .ext nibbles child, key =>
    match stripPfx nibbles key with
    | some remaining => child.valueHash remaining
    | none => Except.ok (some 0)
  | .branch node, key =>
    match key with
    | [] => Except.error "Invalid key. Branch node does not store value."
    | childIdx :: remaining =>
      match h : node.getChild childIdx with
      | some child => child.valueHash remaining
      | none => Except.ok (some 0)
termination_by t _ => sizeOf t
decreasing_by
  all_goals simp_wf
  · have := BranchNode.sizeOf_getChild h
    omega

/-- `BranchNode::value_hash` (branch.rs lines 87–99):
```
let (child_idx, remaining) = match key.split_first() {
    Some(res) => res,
    None => panic!("Invalid key. Branch node does not store value."),
};
match self.get_child(child_idx) {
    Some(child) => child.value_hash(remaining),
    None => Some(H256::zero()),
}
```
The `panic!` is modelled as `Except.error` with the panic message. -/
def BranchNode.valueHash (node : BranchNode) : List U4 → Except String (Option Nat)
  | [] => Except.error "Invalid key. Branch node does not store value."
  | childIdx :: remaining =>
    match node.getChild childIdx with
    | some child => child.valueHash remaining
    | none => Except.ok (some 0)

/-- The `SubTree` dispatch and `BranchNode::value_hash` agree on branch
nodes. -/
theorem SubTree.valueHash_branch (node : BranchNode) (key : List U4) :
    (SubTree.branch node).valueHash key = node.valueHash key := by
  cases key with
  | nil =>
    rw [SubTree.valueHash, BranchNode.valueHash]
  | cons childIdx remaining =>
    rw [SubTree.valueHash, BranchNode.valueHash]
    cases hg : node.getChild childIdx <;> simp [hg]

/-- `PartialTrie { root: Option<Arc<SubTree>> }`. -/
structure PartialTrie where
  root : Option SubTree

/-- `PartialTrie::from_subtree`. -/
def PartialTrie.fromSubtree (t : SubTree) : PartialTrie := ⟨some t⟩

/-- `PartialTrie::from_root_hash` (constructor not under `src/`); modelled
from the spec: the trie whose root is an opaque `Hash` stub carrying the
given digest. -/
def PartialTrie.fromRootHash (h : Nat) : PartialTrie := ⟨some (SubTree.hash h)⟩

/-- `PartialTrie::to_digest` (not under `src/`); modelled from the spec: the
root digest, `H256::zero` for an empty trie. -/
def PartialTrie.toDigest (hs : HashScheme) (t : PartialTrie) : Nat :=
  match t.root with
  | none => 0
  | some root => root.toDigest hs

/-- Outcome of the `prune_key` walk below the current node: either the walk
hit one of the early-`return Ok(trie.clone())` cases (`orig`), or the spine
was rebuilt bottom-up around a stub (`rebuilt`). -/
inductive PruneRes : Type where
  | orig : PruneRes
  | rebuilt (s : SubTree) : PruneRes

/-- The walk + rebuild of `prune_key` (prune.rs lines 26–104), written as
structural recursion instead of the source's explicit `temp_nodes` stack:
while `visited prefix length ≤ kept_prefix_len`, walk along the key
(recording extensions as re-wrapping and branches as child re-attachment into
a fresh `BranchNode::new`); once the prefix length exceeds
`kept_prefix_len`, replace the current subtree by `Hash(its digest)`.
Early `Ok(trie.clone())` returns (extension mismatch, missing branch child,
leaf) surface as `PruneRes.orig`; `bail!` as `Except.error`. -/
def pruneGo (hs : HashScheme) (keptPrefixLen : Nat) :
    SubTree → List U4 → Nat → Except String PruneRes
  | cur, curKey, prefixLen =>
    if prefixLen > keptPrefixLen then
      Except.ok (.rebuilt (SubTree.hash (cur.toDigest hs)))
    else
      match cur with
      | .hash _ =>
        -- `bail!("Invalid key {}. Branch has already been pruned.", ...)`;
        -- the formatted key is elided from the modelled message.
        Except.error "Invalid key. Branch has already been pruned."
      | .ext nibbles child =>
        match stripPfx nibbles curKey with
        | some remaining =>
          (pruneGo hs keptPrefixLen child remaining (prefixLen + nibbles.length)).map
            fun r =>
              match r with
              | .orig => .orig
              | .rebuilt s => .rebuilt (SubTree.ext nibbles s)
        | none => Except.ok .orig
      | .branch node =>
        match curKey with
        | [] => Except.error "Invalid key. Branch node does not store value."
        | childIdx :: remaining =>
          match h : node.getChild childIdx with
          | some child =>
            (pruneGo hs keptPrefixLen child remaining (prefixLen + 1)).map
              fun r =>
                match r with
                | .orig => .orig
                | .rebuilt s =>
                  .rebuilt (SubTree.branch
                    (BranchNode.mk (node.children.set childIdx.val (some s)) none))
          | none => Except.ok .orig
      | .leaf _ _ => Except.ok .orig
termination_by cur _ _ => sizeOf cur
decreasing_by
  all_goals simp_wf
  · have := BranchNode.sizeOf_getChild h
    omega

/-- `prune_key` (prune.rs lines 12–107). -/
def pruneKey (hs : HashScheme) (trie : PartialTrie) (key : List U4)
    (keptPrefixLen : Nat) : Except String PartialTrie :=
  match trie.root with
  | none => Except.error "Cannot prune, root is empty"
  | some root =>
    if keptPrefixLen = 0 then
      Except.ok (PartialTrie.fromRootHash (root.toDigest hs))
    else
      (pruneGo hs keptPrefixLen root key 0).map
        fun r =>
          match r with
          | .orig => trie
          | .rebuilt s => PartialTrie.fromSubtree s

/-- Does the `prune_key` walk, before the visited prefix length exceeds
`keptPrefixLen`, meet an extension whose segment is not a prefix of the
remaining key, a branch whose indexed child is `None`, or a leaf?  (These are
exactly the source's early `return Ok(trie.clone())` cases.) -/
def earlyExitGo (keptPrefixLen : Nat) : SubTree → List U4 → Nat → Bool
  | cur, curKey, prefixLen =>
    if prefixLen > keptPrefixLen then false
    else
      match cur with
      | .hash _ => false
      | .ext nibbles child =>
        match stripPfx nibbles curKey with
        | some remaining => earlyExitGo keptPrefixLen child remaining (prefixLen + nibbles.length)
        | none => true
      | .branch node =>
        match curKey with
        | [] => false
        | childIdx :: remaining =>
          match h : node.getChild childIdx with
          | some child => earlyExitGo keptPrefixLen child remaining (prefixLen + 1)
          | none => true
      | .leaf _ _ => true
termination_by cur _ _ => sizeOf cur
decreasing_by
  all_goals simp_wf
  · have := BranchNode.sizeOf_getChild h
    omega

/-! ## Trie diffs (`src/slimchain-tx-state/src/partial_trie/diff.rs`) -/

/-- `PartialTrieDiff` (type not under `src/`); modelled from the spec: a
mapping from fully-qualified paths (nibble sequences from the root) to
replacement `SubTree`s, as an association list. -/
abbrev PartialTrieDiff : Type := List (List U4 × SubTree)

/-- Lookup of a path in a diff. -/
def lookupPath : PartialTrieDiff → List U4 → Option SubTree
  | [], _ => none
  | (q, s) :: rest, p => if q = p then some s else lookupPath rest p

/-- `merge_diff` (not under `src/`); modelled from the spec: union of the two
path sets, left-biased on path collisions, and on a collision the two
replacements must share digest — the failed check is modelled as an error,
like the other debug assertions. -/
def mergeDiff (hs : HashScheme) (lhs rhs : PartialTrieDiff) :
    Except String PartialTrieDiff :=
  if rhs.all fun e =>
      match lookupPath lhs e.1 with
      | none => true
      | some s => s.toDigest hs == e.2.toDigest hs
  then
    Except.ok (lhs ++ rhs.filter fun e => (lookupPath lhs e.1).isNone)
  else
    Except.error "merge_diff: replacements at a shared path must share digest"

/-- `AccountTrieDiff` from diff.rs. -/
structure AccountTrieDiff where
  nonce : Option Nat
  codeHash : Option Nat
  stateTrieDiff : PartialTrieDiff

/-- `TxTrieDiff` from diff.rs; the `HashMap<Address, AccountTrieDiff>` is
modelled as an association list with distinct keys (`Address` as `Nat`). -/
structure TxTrieDiff where
  mainTrieDiff : PartialTrieDiff
  accTrieDiffs : List (Nat × AccountTrieDiff)

/-- `merge_acc_trie_diff` (diff.rs lines 27–36).  The two `debug_assert_eq!`
on `nonce` and `code_hash` are modelled as errors (debug-build panics). -/
def mergeAccTrieDiff (hs : HashScheme) (lhs rhs : AccountTrieDiff) :
    Except String AccountTrieDiff :=
  if lhs.nonce = rhs.nonce then
    if lhs.codeHash = rhs.codeHash then
      (mergeDiff hs lhs.stateTrieDiff rhs.stateTrieDiff).map
        fun d => ⟨lhs.nonce, lhs.codeHash, d⟩
    else Except.error "assertion failed: lhs.code_hash == rhs.code_hash"
  else Except.error "assertion failed: lhs.nonce == rhs.nonce"

/-- Lookup of an address in the account-diff map. -/
def lookupAcc : List (Nat × AccountTrieDiff) → Nat → Option AccountTrieDiff
  | [], _ => none
  | (a, v) :: rest, k => if a = k then some v else lookupAcc rest k

/-- `HashMap` entry overwrite (`*o.get_mut() = merged_diff`). -/
def replaceAcc : List (Nat × AccountTrieDiff) → Nat → AccountTrieDiff →
    List (Nat × AccountTrieDiff)
  | [], _, _ => []
  | (a, v) :: rest, k, nv =>
    if a = k then (a, nv) :: rest else (a, v) :: replaceAcc rest k nv

/-- The rhs-iteration loop of `merge_tx_trie_diff` (diff.rs lines 41–51):
occupied entries are replaced by the merged diff, vacant entries are
inserted. -/
def mergeAccMapsGo (hs : HashScheme) :
    List (Nat × AccountTrieDiff) → List (Nat × AccountTrieDiff) →
    Except String (List (Nat × AccountTrieDiff))
  | acc, [] => Except.ok acc
  | acc, (addr, diff) :: rest =>
    match lookupAcc acc addr with
    | some cur =>
      match mergeAccTrieDiff hs cur diff with
      | .error e => .error e
      | .ok merged => mergeAccMapsGo hs (replaceAcc acc addr merged) rest
    | none => mergeAccMapsGo hs (acc ++ [(addr, diff)]) rest

/-- `merge_tx_trie_diff` (diff.rs lines 38–57). -/
def mergeTxTrieDiff (hs : HashScheme) (lhs rhs : TxTrieDiff) :
    Except String TxTrieDiff :=
  match mergeAccMapsGo hs lhs.accTrieDiffs rhs.accTrieDiffs with
  | .error e => .error e
  | .ok accTrieDiffs =>
    match mergeDiff hs lhs.mainTrieDiff rhs.mainTrieDiff with
    | .error e => .error e
    | .ok mainTrieDiff => Except.ok ⟨mainTrieDiff, accTrieDiffs⟩

/-- Rust `==` on `PartialTrieDiff`: equality as path-keyed mappings
(`HashMap` set semantics), with `SubTree` values compared by the Rust
`PartialEq` (`SubTree.beq`). -/
def diffBeq (d₁ d₂ : PartialTrieDiff) : Bool :=
  (d₁.all fun e =>
    match lookupPath d₂ e.1 with
    | some s => e.2.beq s
    | none => false) &&
  (d₂.all fun e =>
    match lookupPath d₁ e.1 with
    | some s => e.2.beq s
    | none => false)

/-- Rust `==` on `AccountTrieDiff` (derived `PartialEq`). -/
def accBeq (a b : AccountTrieDiff) : Bool :=
  a.nonce == b.nonce && a.codeHash == b.codeHash &&
    diffBeq a.stateTrieDiff b.stateTrieDiff

/-- Rust `==` on `HashMap<Address, AccountTrieDiff>`: set semantics. -/
def accMapBeq (m₁ m₂ : List (Nat × AccountTrieDiff)) : Bool :=
  (m₁.all fun e =>
    match lookupAcc m₂ e.1 with
    | some v => accBeq e.2 v
    | none => false) &&
  (m₂.all fun e =>
    match lookupAcc m₁ e.1 with
    | some v => accBeq e.2 v
    | none => false)

/-- Rust `==` on `TxTrieDiff` (derived `PartialEq`). -/
def txDiffBeq (t₁ t₂ : TxTrieDiff) : Bool :=
  diffBeq t₁.mainTrieDiff t₂.mainTrieDiff &&
    accMapBeq t₁.accTrieDiffs t₂.accTrieDiffs

/-- Two diffs have disjoint path sets. -/
def diffPathsDisjoint (d₁ d₂ : PartialTrieDiff) : Bool :=
  d₁.all fun e => (lookupPath d₂ e.1).isNone

/-- Keys of an association list are pairwise distinct (`HashMap`
well-formedness of the model). -/
def accKeysNodup (m : List (Nat × AccountTrieDiff)) : Bool :=
  (m.map Prod.fst).Nodup

/-- Paths of a diff are pairwise distinct (mapping well-formedness). -/
def diffKeysNodup (d : PartialTrieDiff) : Bool :=
  (d.map Prod.fst).Nodup

/-! ## TxEngine counters (`src/slimchain-tx-engine/src/lib.rs`) -/

/-- Global counters of one `TxEngine` execution: `pushed`, `popped`,
`failed` count `push_task` calls, successful `pop_result` calls, and failed
task executions (executor error or `TxWriteSetTrie` error); `queued` is the
number of tasks in the injector plus the local deques, `executing` the tasks
currently held by a worker, `results` the length of the result queue, and
`remaining` the `remaining_tasks` atomic. -/
structure EngineState where
  pushed : Nat
  popped : Nat
  failed : Nat
  queued : Nat
  executing : Nat
  results : Nat
  remaining : Nat
deriving DecidableEq

/-- The initial engine state (`TxEngine::new`): all counters zero. -/
def engineInit : EngineState := ⟨0, 0, 0, 0, 0, 0, 0⟩

/-- Atomic transitions of the engine, one per counter-relevant program
point of lib.rs:
* `push` — `push_task` (lines 139–145): increment `remaining_tasks`,
  enqueue the task.
* `start` — a worker's `find_task`/`wait_until_task` dequeues a task.
* `finishOk` — the success path of `run` (lines 291–294): push the
  `TxTaskOutput`; `remaining_tasks` untouched.
* `finishFail` — either error path of `run` (lines 276–280, 284–288):
  `remaining_tasks.fetch_sub(1)`, no output.
* `popOk` — `pop_result` returning `Some` (lines 147–153): dequeue one
  output, `remaining_tasks.fetch_sub(1)`.
(`pop_result` returning `None` does not change the state.) -/
inductive EngineStep : EngineState → EngineState → Prop where
  | push (s : EngineState) :
      EngineStep s ⟨s.pushed + 1, s.popped, s.failed, s.queued + 1,
        s.executing, s.results, s.remaining + 1⟩
  | start (s : EngineState) (h : 0 < s.queued) :
      EngineStep s ⟨s.pushed, s.popped, s.failed, s.queued - 1,
        s.executing + 1, s.results, s.remaining⟩
  | finishOk (s : EngineState) (h : 0 < s.executing) :
      EngineStep s ⟨s.pushed, s.popped, s.failed, s.queued,
        s.executing - 1, s.results + 1, s.remaining⟩
  | finishFail (s : EngineState) (h : 0 < s.executing) :
      EngineStep s ⟨s.pushed, s.popped, s.failed + 1, s.queued,
        s.executing - 1, s.results, s.remaining - 1⟩
  | popOk (s : EngineState) (h : 0 < s.results) :
      EngineStep s ⟨s.pushed, s.popped + 1, s.failed, s.queued,
        s.executing, s.results - 1, s.remaining - 1⟩

/-- States reachable from the freshly constructed engine. -/
inductive EngineReach : EngineState → Prop where
  | init : EngineReach engineInit
  | step {s s' : EngineState} : EngineReach s → EngineStep s s' → EngineReach s'

/-- A quiescent point: no task being executed by any worker and no task left
in the injector or the local deques. -/
def Quiescent (s : EngineState) : Prop := s.queued = 0 ∧ s.executing = 0

/-- Local effect of one iteration of `TxEngineWorkerInstance::run`
(lib.rs lines 265–296) on the result queue and the `remaining_tasks`
counter, for a dequeued task `taskId`: `execRes` is the outcome of
`self.worker.execute(task)` and `trieRes tx` the outcome of
`TxWriteSetTrie::new(...)`. -/
structure WorkerView (Tx Trie : Type) where
  remaining : Nat
  results : List (Nat × Tx × Trie)

/-- One `run` iteration body. -/
def runTaskStep {Tx Trie : Type} (taskId : Nat) (execRes : Except String Tx)
    (trieRes : Tx → Except String Trie) (st : WorkerView Tx Trie) :
    WorkerView Tx Trie :=
  match execRes with
  | .error _ => ⟨st.remaining - 1, st.results⟩
  | .ok tx =>
    match trieRes tx with
    | .error _ => ⟨st.remaining - 1, st.results⟩
    | .ok wt => ⟨st.remaining, st.results ++ [(taskId, tx, wt)]⟩

/-! ## Block commit (`src/slimchain-chain/src/behavior/commit.rs`) -/

/-- The block as `commit_block_storage_node` sees it: its transaction hash
list (`blk.tx_list()`) and its header (`blk.block_header()`, abstracted to a
`Nat` identifier). -/
structure CBlock where
  txList : List Nat
  headerId : Nat
deriving DecidableEq

/-- `BlockProposal { block, txs }`. -/
structure CBlockProposal (Tx : Type) where
  block : CBlock
  txs : List Tx

/-- One operation recorded in a DB `Transaction` batch. -/
inductive DbOp (Tx : Type) where
  | insertBlock (b : CBlock) : DbOp Tx
  | insertTx (txHash : Nat) (tx : Tx) : DbOp Tx
  | updateState (u : Nat) : DbOp Tx
deriving DecidableEq

/-- Outcomes of the fallible collaborator calls of commit.rs
(serialization in `insert_block` / `insert_tx` / `update_state`, and the
`write_async` DB write), supplied by the environment. -/
structure CommitEnv (Tx : Type) where
  insertBlockRes : CBlock → Except String Unit
  insertTxRes : Nat → Tx → Except String Unit
  updateStateRes : Nat → Except String Unit
  writeRes : List (DbOp Tx) → Except String Unit

/-- Observable persistent state: the list of DB transaction batches that
completed a `write_async`, and `latest_block_header`. -/
structure CommitWorld (Tx : Type) where
  written : List (List (DbOp Tx))
  latest : Option Nat

/-- The per-transaction loop of `commit_block_storage_node` (lines 45–48):
`debug_assert_eq!(tx_hash, tx.to_digest())` (modelled as a panic error), then
`db_tx.insert_tx(tx_hash, tx)?`. -/
def buildTxOps {Tx : Type} (env : CommitEnv Tx) (txDigest : Tx → Nat) :
    List (Nat × Tx) → Except String (List (DbOp Tx))
  | [] => Except.ok []
  | (txHash, tx) :: rest =>
    if txHash = txDigest tx then
      match env.insertTxRes txHash tx with
      | .error e => .error e
      | .ok _ =>
        match buildTxOps env txDigest rest with
        | .error e => .error e
        | .ok ops => Except.ok (DbOp.insertTx txHash tx :: ops)
    else .error "assertion failed: tx_hash == tx.to_digest()"

/-- `commit_block_storage_node` (commit.rs lines 31–55): build one DB
transaction holding the block, the per-tx inserts over
`blk.tx_list().iter().zip(txs.iter())`, and the state update; submit it via
a single `write_async`; set `latest_block_header` only after that write
returns `Ok`.  Any `?`-propagated failure returns the error with the world's
`latest` (and, for failures before the write, its `written`) unchanged. -/
def commitBlockStorageNode {Tx : Type} (env : CommitEnv Tx)
    (txDigest : Tx → Nat) (p : CBlockProposal Tx) (stateUpdate : Nat)
    (w : CommitWorld Tx) : Except String Unit × CommitWorld Tx :=
  let blk := p.block
  match env.insertBlockRes blk with
  | .error e => (.error e, w)
  | .ok _ =>
    match buildTxOps env txDigest (blk.txList.zip p.txs) with
    | .error e => (.error e, w)
    | .ok txOps =>
      match env.updateStateRes stateUpdate with
      | .error e => (.error e, w)
      | .ok _ =>
        let dbTx := DbOp.insertBlock blk :: txOps ++ [DbOp.updateState stateUpdate]
        match env.writeRes dbTx with
        | .error e => (.error e, w)
        | .ok _ => (.ok (), ⟨w.written ++ [dbTx], some blk.headerId⟩)

/-- Cache validity lifted to a whole trie. -/
def PartialTrie.cacheOk (hs : HashScheme) (t : PartialTrie) : Bool :=
  match t.root with
  | none => true
  | some root => root.cacheOk hs

/-- A concrete hash scheme used to evaluate the theorems on explicit
inputs. -/
def demoHs : HashScheme :=
  ⟨fun _ v => v + 1, fun _ d => d + 2,
   fun ds => (ds.map fun o => o.getD 0).sum + 3⟩

/-- A concrete two-level trie: a root branch whose slot 1 holds a branch
whose slot 0 holds a leaf. -/
def demoTrie : PartialTrie :=
  ⟨some (SubTree.branch (BranchNode.mk
    (ChildList.consNone (ChildList.consSome
      (SubTree.branch (BranchNode.mk
        (ChildList.consSome (SubTree.leaf [] 7) ChildList.nil) none))
      ChildList.nil)) none))⟩

/-- `demoTrie` after pruning key `[1, 0]` with `kept_prefix_len = 1`: the
leaf is collapsed to the stub of its digest (`demoHs.leafHash [] 7 = 8`). -/
def demoPruned : PartialTrie :=
  ⟨some (SubTree.branch (BranchNode.mk
    (ChildList.consNone (ChildList.consSome
      (SubTree.branch (BranchNode.mk
        (ChildList.consSome (SubTree.hash 8) ChildList.nil) none))
      ChildList.nil)) none))⟩

/-! ## Theorems -/

/-- C6: `compute_diff(ts, prev_blk)` equals
`prev_diff + (prev_diff / 2048) * max(1 - (ts - prev_ts)/10, -99)` evaluated
in exact signed 64-bit integer arithmetic (`prev_diff` read as an `i64` bit
pattern) with truncating division, the final signed value cast to `u64`
modulo `2^64` — the release-mode wrap of each intermediate `i64` op agrees
with the exact evaluation after the final cast. -/
theorem C6_compute_diff_exact (ts : Int) (prevBlk : PowBlock) :
    computeDiff ts prevBlk =
      u64OfInt (toI64 prevBlk.diff +
        Int.tdiv (toI64 prevBlk.diff) 2048 *
          max (1 - Int.tdiv (ts - prevBlk.header.timeStamp) 10) (-99)) := by
  simp only [computeDiff, u64OfInt, wrapI64]
  omega

/-- C3 counterexample: at a block whose `diff` does not match the recomputed
difficulty, `verify_consensus` fails with the message `Invalid difficult.`
(sic, pow.rs line 107), not `Invalid difficulty` as the claim states. -/
theorem C3_counterexample :
    verifyConsensus (fun _ => 0) ⟨⟨0⟩, 1000, 0⟩ ⟨⟨0⟩, 2048, 0⟩ =
      Except.error "Invalid difficult." ∧
    "Invalid difficult." ≠ "Invalid difficulty" := by
  constructor
  · rfl
  · decide

/-- C3 (amended): for `blk.diff > 0` (Rust `U256` division panics at 0),
`verify_consensus(blk, prev_blk)` returns `Ok` iff `blk.diff` equals the
difficulty recomputed from `blk`'s timestamp and `prev_blk` and
`U256(blk.digest()) <= U256::MAX / blk.diff`; when the first condition fails
the error message is `Invalid difficult.` (not `Invalid difficulty`), and
when only the second fails it is `Invalid nonce`. -/
theorem C3_verify_consensus (d : PowBlock → Nat) (blk prevBlk : PowBlock)
    (hdiff : 0 < blk.diff) :
    (verifyConsensus d blk prevBlk = Except.ok () ↔
      blk.diff = computeDiff blk.header.timeStamp prevBlk ∧
        d blk ≤ u256Max / blk.diff) ∧
    (blk.diff ≠ computeDiff blk.header.timeStamp prevBlk →
      verifyConsensus d blk prevBlk = Except.error "Invalid difficult.") ∧
    (blk.diff = computeDiff blk.header.timeStamp prevBlk →
      ¬ d blk ≤ u256Max / blk.diff →
      verifyConsensus d blk prevBlk = Except.error "Invalid nonce") := by
  unfold verifyConsensus nonceIsValid debugAssertions
  by_cases h₁ : blk.diff = computeDiff blk.header.timeStamp prevBlk <;>
    by_cases h₂ : d blk ≤ u256Max / blk.diff <;>
    simp [h₁, h₂]

/-- C3 witness: a concrete valid block passes verification. -/
theorem C3_verify_consensus_witness :
    0 < (2049 : Nat) ∧
    verifyConsensus (fun _ => 0) ⟨⟨0⟩, 2049, 0⟩ ⟨⟨0⟩, 2048, 0⟩ =
      Except.ok () :=
  ⟨by decide,
   ((C3_verify_consensus (fun _ => 0) ⟨⟨0⟩, 2049, 0⟩ ⟨⟨0⟩, 2048, 0⟩
      (by decide)).1).mpr ⟨by decide, by decide⟩⟩

/-- C5 counterexample: a key terminating exactly at a branch (empty remaining
nibble sequence) does not resolve to `H256::zero` — `BranchNode::value_hash`
panics (`panic!("Invalid key. Branch node does not store value.")`,
branch.rs line 91). -/
theorem C5_counterexample :
    BranchNode.valueHash (BranchNode.mk ChildList.nil none) [] =
      Except.error "Invalid key. Branch node does not store value." ∧
    BranchNode.valueHash (BranchNode.mk ChildList.nil none) [] ≠
      Except.ok (some 0) := by
  constructor
  · rfl
  · simp [BranchNode.valueHash]

/-- C5 (amended): on a branch node, a key with an empty remaining nibble
sequence panics with `Invalid key. Branch node does not store value.`, while
a key whose next nibble indexes a missing (`None`) child resolves to
`Some(H256::zero)`. -/
theorem C5_branch_value_lookup (node : BranchNode) :
    BranchNode.valueHash node [] =
      Except.error "Invalid key. Branch node does not store value." ∧
    (∀ (childIdx : U4) (remaining : List U4),
      node.getChild childIdx = none →
      node.valueHash (childIdx :: remaining) = Except.ok (some 0)) := by
  constructor
  · rfl
  · intro childIdx remaining h
    simp [BranchNode.valueHash, h]

/-- C5 witness: concrete branch node with a missing child at index 0. -/
theorem C5_branch_value_lookup_witness :
    BranchNode.valueHash (BranchNode.mk (ChildList.consNone ChildList.nil) none)
      [0] = Except.ok (some 0) :=
  (C5_branch_value_lookup
    (BranchNode.mk (ChildList.consNone ChildList.nil) none)).2 0 [] rfl

/-- C8: each `run` iteration either (on success of both the executor and the
`TxWriteSetTrie` construction) pushes exactly one `TxTaskOutput` carrying the
task's id and leaves `remaining_tasks` untouched, or (on either failure)
pushes nothing and decrements `remaining_tasks` by exactly one. -/
theorem C8_task_atomicity {Tx Trie : Type} (taskId : Nat)
    (execRes : Except String Tx) (trieRes : Tx → Except String Trie)
    (st : WorkerView Tx Trie) (hrem : 0 < st.remaining) :
    (∃ tx wt, execRes = Except.ok tx ∧ trieRes tx = Except.ok wt ∧
      runTaskStep taskId execRes trieRes st =
        ⟨st.remaining, st.results ++ [(taskId, tx, wt)]⟩) ∨
    ((∀ tx wt, execRes = Except.ok tx → trieRes tx ≠ Except.ok wt) ∧
      (runTaskStep taskId execRes trieRes st).results = st.results ∧
      (runTaskStep taskId execRes trieRes st).remaining + 1 = st.remaining) := by
  cases execRes with
  | error e =>
    right
    refine ⟨?_, ?_, ?_⟩
    · intro tx wt h
      cases h
    · simp [runTaskStep]
    · simp only [runTaskStep]
      omega
  | ok tx =>
    cases htr : trieRes tx with
    | error e =>
      right
      refine ⟨?_, ?_, ?_⟩
      · intro tx' wt h
        cases h
        rw [htr]
        intro hc
        cases hc
      · simp [runTaskStep, htr]
      · simp only [runTaskStep, htr]
        omega
    | ok wt =>
      left
      exact ⟨tx, wt, rfl, htr, by simp [runTaskStep, htr]⟩

/-- C8 witness: a concrete successful task. -/
theorem C8_task_atomicity_witness :
    0 < (1 : Nat) ∧
    ((∃ tx wt, (Except.ok 5 : Except String Nat) = Except.ok tx ∧
        (fun _ : Nat => (Except.ok 7 : Except String Nat)) tx = Except.ok wt ∧
        runTaskStep 3 (Except.ok 5) (fun _ => Except.ok 7)
          (⟨1, []⟩ : WorkerView Nat Nat) = ⟨1, [] ++ [(3, tx, wt)]⟩) ∨
      ((∀ tx wt, (Except.ok 5 : Except String Nat) = Except.ok tx →
          (fun _ : Nat => (Except.ok 7 : Except String Nat)) tx ≠ Except.ok wt) ∧
        (runTaskStep 3 (Except.ok 5) (fun _ => Except.ok 7)
          (⟨1, []⟩ : WorkerView Nat Nat)).results = [] ∧
        (runTaskStep 3 (Except.ok 5) (fun _ => Except.ok 7)
          (⟨1, []⟩ : WorkerView Nat Nat)).remaining + 1 = 1)) :=
  ⟨by decide,
   C8_task_atomicity 3 (Except.ok 5) (fun _ => Except.ok 7) ⟨1, []⟩ (by decide)⟩

/-- Counter invariant of the engine transition system: the
`remaining_tasks` atomic always equals the number of tasks queued, executing
or awaiting `pop_result`, and every pushed task is in exactly one of the
five places. -/
theorem engine_counter_inv {s : EngineState} (h : EngineReach s) :
    s.remaining = s.queued + s.executing + s.results ∧
    s.pushed = s.queued + s.executing + s.results + s.popped + s.failed := by
  induction h with
  | init => simp [engineInit]
  | step _ hstep ih =>
    cases hstep <;> simp only at ih ⊢ <;> omega

/-- C2 counterexample: push one task, let a worker dequeue it, and let the
executor fail.  The resulting state is reachable and quiescent, yet
`popped + remaining = 0 ≠ 1 = pushed`: the claim's equality does not extend
to executions where the executor (or `TxWriteSetTrie` construction)
returned an error, because the worker decrements `remaining_tasks` without
any output to pop. -/
theorem C2_counterexample :
    EngineReach ⟨1, 0, 1, 0, 0, 0, 0⟩ ∧ Quiescent ⟨1, 0, 1, 0, 0, 0, 0⟩ ∧
    EngineState.popped ⟨1, 0, 1, 0, 0, 0, 0⟩ +
        EngineState.remaining ⟨1, 0, 1, 0, 0, 0, 0⟩ ≠
      EngineState.pushed ⟨1, 0, 1, 0, 0, 0, 0⟩ := by
  refine ⟨?_, ⟨rfl, rfl⟩, by decide⟩
  have h0 : EngineReach engineInit := EngineReach.init
  have h1 : EngineReach ⟨1, 0, 0, 1, 0, 0, 1⟩ :=
    EngineReach.step h0 (EngineStep.push engineInit)
  have h2 : EngineReach ⟨1, 0, 0, 0, 1, 0, 1⟩ :=
    EngineReach.step h1 (EngineStep.start ⟨1, 0, 0, 1, 0, 0, 1⟩ (by decide))
  exact EngineReach.step h2 (EngineStep.finishFail ⟨1, 0, 0, 0, 1, 0, 1⟩ (by decide))

/-- C2 (amended): at every reachable quiescent point (no task being executed
and none queued), the number of successful `pop_result` calls plus
`remaining_tasks()` equals the number of `push_task` calls minus the number
of failed task executions; the claim's equality with the full push count
holds exactly when no execution failed. -/
theorem C2_quiescent_count {s : EngineState} (hr : EngineReach s)
    (hq : Quiescent s) : s.popped + s.remaining + s.failed = s.pushed := by
  obtain ⟨h1, h2⟩ := engine_counter_inv hr
  obtain ⟨hq1, hq2⟩ := hq
  omega

/-- C2 witness: a reachable quiescent state with one pushed, executed and
popped task. -/
theorem C2_quiescent_count_witness :
    EngineReach ⟨1, 1, 0, 0, 0, 0, 0⟩ ∧ Quiescent ⟨1, 1, 0, 0, 0, 0, 0⟩ ∧
    EngineState.popped ⟨1, 1, 0, 0, 0, 0, 0⟩ +
        EngineState.remaining ⟨1, 1, 0, 0, 0, 0, 0⟩ +
        EngineState.failed ⟨1, 1, 0, 0, 0, 0, 0⟩ =
      EngineState.pushed ⟨1, 1, 0, 0, 0, 0, 0⟩ := by
  have h0 : EngineReach engineInit := EngineReach.init
  have h1 : EngineReach ⟨1, 0, 0, 1, 0, 0, 1⟩ :=
    EngineReach.step h0 (EngineStep.push engineInit)
  have h2 : EngineReach ⟨1, 0, 0, 0, 1, 0, 1⟩ :=
    EngineReach.step h1 (EngineStep.start ⟨1, 0, 0, 1, 0, 0, 1⟩ (by decide))
  have h3 : EngineReach ⟨1, 0, 0, 0, 0, 1, 1⟩ :=
    EngineReach.step h2 (EngineStep.finishOk ⟨1, 0, 0, 0, 1, 0, 1⟩ (by decide))
  have h4 : EngineReach ⟨1, 1, 0, 0, 0, 0, 0⟩ :=
    EngineReach.step h3 (EngineStep.popOk ⟨1, 0, 0, 0, 0, 1, 1⟩ (by decide))
  exact ⟨h4, ⟨rfl, rfl⟩, C2_quiescent_count h4 ⟨rfl, rfl⟩⟩

/-- The per-transaction build loop, on a zip of digests with their
transactions, succeeds exactly into the corresponding `insertTx` ops. -/
theorem buildTxOps_map {Tx : Type} (env : CommitEnv Tx) (txDigest : Tx → Nat) :
    ∀ (l : List Tx) (ops : List (DbOp Tx)),
      buildTxOps env txDigest (l.map fun t => (txDigest t, t)) = Except.ok ops →
      ops = l.map fun t => DbOp.insertTx (txDigest t) t := by
  intro l
  induction l with
  | nil =>
    intro ops h
    simp only [List.map_nil, buildTxOps] at h
    cases h
    rfl
  | cons t rest ih =>
    intro ops h
    simp only [List.map_cons, buildTxOps, if_pos rfl] at h
    cases hins : env.insertTxRes (txDigest t) t with
    | error e => rw [hins] at h; cases h
    | ok _ =>
      rw [hins] at h
      cases hrest : buildTxOps env txDigest (rest.map fun t => (txDigest t, t)) with
      | error e => rw [hrest] at h; cases h
      | ok ops' =>
        rw [hrest] at h
        cases h
        simp [ih ops' hrest]

/-- Zipping a digest list against its source transactions pairs each
transaction with its digest. -/
theorem zip_map_digest {Tx : Type} (txDigest : Tx → Nat) :
    ∀ (l : List Tx), (l.map txDigest).zip l = l.map fun t => (txDigest t, t) := by
  intro l
  induction l with
  | nil => rfl
  | cons t rest ih => simp [ih]

/-- C7: for a well-formed proposal (`blk.tx_list` is the digest list of
`txs`, the invariant the `debug_assert_eq!` checks), a successful
`commit_block_storage_node` appends exactly one DB transaction batch —
containing the block, one `insert_tx` per transaction of the proposal keyed
by its digest, and the state update — via a single `write_async`, and sets
`latest_block_header` to the block's header; on any failure the error is
returned and `latest_block_header` (and the persisted batches) are left
unchanged. -/
theorem C7_commit_storage_node {Tx : Type} (env : CommitEnv Tx)
    (txDigest : Tx → Nat) (p : CBlockProposal Tx) (stateUpdate : Nat)
    (w : CommitWorld Tx) (hlist : p.block.txList = p.txs.map txDigest) :
    ((commitBlockStorageNode env txDigest p stateUpdate w).1 = Except.ok () →
      (commitBlockStorageNode env txDigest p stateUpdate w).2.written =
        w.written ++ [DbOp.insertBlock p.block ::
          p.txs.map (fun tx => DbOp.insertTx (txDigest tx) tx) ++
          [DbOp.updateState stateUpdate]] ∧
      (commitBlockStorageNode env txDigest p stateUpdate w).2.latest =
        some p.block.headerId ∧
      ∀ tx ∈ p.txs, DbOp.insertTx (txDigest tx) tx ∈
        (DbOp.insertBlock p.block ::
          p.txs.map (fun tx => DbOp.insertTx (txDigest tx) tx) ++
          [DbOp.updateState stateUpdate])) ∧
    (∀ e, (commitBlockStorageNode env txDigest p stateUpdate w).1 =
        Except.error e →
      (commitBlockStorageNode env txDigest p stateUpdate w).2.latest =
        w.latest ∧
      (commitBlockStorageNode env txDigest p stateUpdate w).2.written =
        w.written) := by
  have hzip : p.block.txList.zip p.txs = p.txs.map fun t => (txDigest t, t) := by
    rw [hlist, zip_map_digest]
  simp only [commitBlockStorageNode]
  rw [hzip]
  cases hib : env.insertBlockRes p.block with
  | error e =>
    dsimp only
    exact ⟨fun h => Except.noConfusion h, fun e' h => ⟨rfl, rfl⟩⟩
  | ok u =>
    dsimp only
    cases hb : buildTxOps env txDigest (p.txs.map fun t => (txDigest t, t)) with
    | error e =>
      dsimp only
      exact ⟨fun h => Except.noConfusion h, fun e' h => ⟨rfl, rfl⟩⟩
    | ok txOps =>
      dsimp only
      have hops := buildTxOps_map env txDigest p.txs txOps hb
      subst hops
      cases hu : env.updateStateRes stateUpdate with
      | error e =>
        dsimp only
        exact ⟨fun h => Except.noConfusion h, fun e' h => ⟨rfl, rfl⟩⟩
      | ok u₂ =>
        dsimp only
        cases hw : env.writeRes (DbOp.insertBlock p.block ::
            (p.txs.map fun t => DbOp.insertTx (txDigest t) t) ++
            [DbOp.updateState stateUpdate]) with
        | error e =>
          dsimp only
          exact ⟨fun h => Except.noConfusion h, fun e' h => ⟨rfl, rfl⟩⟩
        | ok u₃ =>
          dsimp only
          refine ⟨fun _ => ⟨rfl, rfl, ?_⟩, fun e' h => Except.noConfusion h⟩
          intro tx htx
          exact List.mem_cons_of_mem _
            (List.mem_append_left _ (List.mem_map_of_mem _ htx))

/-- C7 witness: a concrete commit with an all-`Ok` environment. -/
theorem C7_commit_storage_node_witness :
    ([5] : List Nat) = [5].map id ∧
    ((commitBlockStorageNode
      (⟨fun _ => Except.ok (), fun _ _ => Except.ok (),
        fun _ => Except.ok (), fun _ => Except.ok ()⟩ : CommitEnv Nat)
      id ⟨⟨[5], 9⟩, [5]⟩ 3 ⟨[], none⟩).1 = Except.ok () →
      (commitBlockStorageNode
        (⟨fun _ => Except.ok (), fun _ _ => Except.ok (),
          fun _ => Except.ok (), fun _ => Except.ok ()⟩ : CommitEnv Nat)
        id ⟨⟨[5], 9⟩, [5]⟩ 3 ⟨[], none⟩).2.latest = some 9) :=
  ⟨rfl,
   fun h =>
     ((C7_commit_storage_node
        ⟨fun _ => Except.ok (), fun _ _ => Except.ok (),
         fun _ => Except.ok (), fun _ => Except.ok ()⟩
        id ⟨⟨[5], 9⟩, [5]⟩ 3 ⟨[], none⟩ rfl).1 h).2.1⟩

/-- C9: under the memo-cell invariant (which `BranchNode::new`,
deserialization and `to_digest` maintain — the cell is private and only
`to_digest` writes it), `BranchNode::to_digest` always returns
`branch_node_hash` of the 16 children digests; the memoized value returned
on repeated calls equals a fresh recomputation from the children; and
`PartialEq` on `BranchNode` is determined by the children alone, ignoring
the cache. -/
theorem C9_branch_digest_memo (hs : HashScheme) :
    (∀ (children : ChildList) (nodeHash : Option Nat),
      (BranchNode.mk children nodeHash).cacheOk hs = true →
      (BranchNode.mk children nodeHash).toDigest hs =
        hs.branchHash (children.digests hs) ∧
      (BranchNode.toDigestM hs (BranchNode.mk children nodeHash)).1 =
        hs.branchHash (children.digests hs) ∧
      ((BranchNode.toDigestM hs (BranchNode.mk children nodeHash)).2.cacheOk hs
          = true ∧
        (BranchNode.toDigestM hs
          ((BranchNode.toDigestM hs (BranchNode.mk children nodeHash)).2)).1 =
          hs.branchHash (children.digests hs))) ∧
    (∀ children : ChildList, children.cacheOk hs = true →
      (BranchNode.new children).cacheOk hs = true) ∧
    (∀ (c₁ c₂ : ChildList) (h₁ h₂ : Option Nat),
      BranchNode.beq (BranchNode.mk c₁ h₁) (BranchNode.mk c₂ h₂) =
        ChildList.beq c₁ c₂) := by
  refine ⟨?_, ?_, ?_⟩
  · intro children nodeHash hok
    cases nodeHash with
    | none =>
      simp only [BranchNode.cacheOk, Bool.true_and] at hok
      refine ⟨?_, ?_, ?_, ?_⟩ <;>
        simp [BranchNode.toDigest, BranchNode.toDigestM, BranchNode.cacheOk, hok]
    | some h =>
      simp only [BranchNode.cacheOk, Bool.and_eq_true, beq_iff_eq] at hok
      obtain ⟨hh, hch⟩ := hok
      refine ⟨?_, ?_, ?_, ?_⟩ <;>
        simp [BranchNode.toDigest, BranchNode.toDigestM, BranchNode.cacheOk,
          hh, hch]
  · intro children hok
    simp [BranchNode.new, BranchNode.cacheOk, hok]
  · intro c₁ c₂ h₁ h₂
    simp [BranchNode.beq]

/-- C9 witness: the empty-children branch node with an empty cache. -/
theorem C9_branch_digest_memo_witness :
    (BranchNode.mk ChildList.nil none).toDigest demoHs =
      demoHs.branchHash (ChildList.digests demoHs ChildList.nil) :=
  ((C9_branch_digest_memo demoHs).1 ChildList.nil none
    (by simp [BranchNode.cacheOk, ChildList.cacheOk])).1

/-- Every subtree has positive size (fuel-induction base case). -/
theorem SubTree.sizeOf_pos (t : SubTree) : 0 < sizeOf t := by
  cases t <;> simp_arith

/-- If the `prune_key` walk meets an early-exit condition, the recursion
returns `orig` (the source's `return Ok(trie.clone())`). -/
theorem pruneGo_orig (hs : HashScheme) (n : Nat) :
    ∀ (fuel : Nat) (cur : SubTree) (key : List U4) (plen : Nat),
      sizeOf cur ≤ fuel → earlyExitGo n cur key plen = true →
      pruneGo hs n cur key plen = Except.ok PruneRes.orig := by
  intro fuel
  induction fuel with
  | zero =>
    intro cur key plen hsz _
    exact absurd hsz (by have := SubTree.sizeOf_pos cur; omega)
  | succ m ih =>
    intro cur key plen hsz hee
    rw [earlyExitGo.eq_def] at hee
    rw [pruneGo.eq_def]
    dsimp only at hee ⊢
    by_cases hl : plen > n
    · rw [if_pos hl] at hee
      cases hee
    · rw [if_neg hl] at hee ⊢
      cases cur with
      | hash h =>
        dsimp only at hee
        cases hee
      | leaf nib v => rfl
      | ext nib child =>
        dsimp only at hee ⊢
        cases hsp : stripPfx nib key with
        | none => rfl
        | some rem =>
          rw [hsp] at hee
          dsimp only at hee ⊢
          have hszc : sizeOf child ≤ m := by
            simp only [SubTree.ext.sizeOf_spec] at hsz
            omega
          rw [ih child rem (plen + nib.length) hszc hee]
          rfl
      | branch node =>
        cases key with
        | nil =>
          dsimp only at hee
          cases hee
        | cons childIdx rem =>
          dsimp only at hee ⊢
          split at hee
          · next child heq =>
            have hszc : sizeOf child ≤ m := by
              have := BranchNode.sizeOf_getChild heq
              simp only [SubTree.branch.sizeOf_spec] at hsz
              omega
            rw [ih child rem (plen + 1) hszc hee]
            rfl
          · next heq => rfl

/-- C10: for `kept_prefix_len ≥ 1`, if the walk along the key — before the
visited prefix length exceeds `kept_prefix_len` — meets an extension whose
nibble segment is not a prefix of the remaining key, a branch whose indexed
child is `None`, or a leaf node, then `prune_key` returns `Ok` with the trie
unchanged (the source's `trie.clone()`): no subtree is collapsed to a stub. -/
theorem C10_prune_early_exit (hs : HashScheme) (trie : PartialTrie)
    (root : SubTree) (key : List U4) (n : Nat) (hroot : trie.root = some root)
    (hn : 1 ≤ n) (hee : earlyExitGo n root key 0 = true) :
    pruneKey hs trie key n = Except.ok trie := by
  unfold pruneKey
  rw [hroot]
  dsimp only
  rw [if_neg (by omega)]
  rw [pruneGo_orig hs n (sizeOf root) root key 0 le_rfl hee]
  rfl

/-- C10 witness: pruning a single-leaf trie along its own key with
`kept_prefix_len = 1` meets the leaf before the prefix bound and leaves the
trie untouched. -/
theorem C10_prune_early_exit_witness :
    pruneKey demoHs ⟨some (SubTree.leaf [1] 5)⟩ [1] 1 =
      Except.ok ⟨some (SubTree.leaf [1] 5)⟩ :=
  C10_prune_early_exit demoHs ⟨some (SubTree.leaf [1] 5)⟩
    (SubTree.leaf [1] 5) [1] 1 rfl (by omega) (by rw [earlyExitGo.eq_def]; rfl)

/-- Cache validity descends from a children array to a retrieved child. -/
theorem ChildList.cacheOk_get (hs : HashScheme) :
    ∀ (cl : ChildList) (i : Nat) (t : SubTree),
      cl.cacheOk hs = true → cl.get i = some t → t.cacheOk hs = true
  | .nil, i, t, _, hg => by simp [ChildList.get] at hg
  | .consNone rest, 0, t, _, hg => by simp [ChildList.get] at hg
  | .consSome t' rest, 0, t, hc, hg => by
    simp only [ChildList.get, Option.some.injEq] at hg
    subst hg
    simp only [ChildList.cacheOk, Bool.and_eq_true] at hc
    exact hc.1
  | .consNone rest, i + 1, t, hc, hg => by
    simp only [ChildList.get] at hg
    simp only [ChildList.cacheOk] at hc
    exact ChildList.cacheOk_get hs rest i t hc hg
  | .consSome t' rest, i + 1, t, hc, hg => by
    simp only [ChildList.get] at hg
    simp only [ChildList.cacheOk, Bool.and_eq_true] at hc
    exact ChildList.cacheOk_get hs rest i t hc.2 hg

/-- Cache validity descends through `get_child`. -/
theorem BranchNode.cacheOk_getChild (hs : HashScheme) {n : BranchNode}
    {i : U4} {t : SubTree} (hc : n.cacheOk hs = true)
    (hg : n.getChild i = some t) : t.cacheOk hs = true := by
  cases n with
  | mk children cache =>
    simp only [BranchNode.cacheOk, Bool.and_eq_true] at hc
    exact ChildList.cacheOk_get hs children i.val t hc.2 hg

/-- A cache-valid branch node's digest is the branch hash of its children
digests, whether memoized or recomputed. -/
theorem BranchNode.toDigest_of_cacheOk (hs : HashScheme) {n : BranchNode}
    (hc : n.cacheOk hs = true) :
    n.toDigest hs = hs.branchHash (n.children.digests hs) := by
  cases n with
  | mk children cache =>
    cases cache with
    | none => simp [BranchNode.toDigest, BranchNode.children]
    | some h =>
      simp only [BranchNode.cacheOk, Bool.and_eq_true, beq_iff_eq] at hc
      simp [BranchNode.toDigest, BranchNode.children, hc.1]

/-- Replacing a child with a digest-equal subtree leaves the children digest
list unchanged. -/
theorem ChildList.digests_set (hs : HashScheme) :
    ∀ (cl : ChildList) (i : Nat) (c s : SubTree),
      cl.get i = some c → s.toDigest hs = c.toDigest hs →
      (cl.set i (some s)).digests hs = cl.digests hs
  | .nil, i, c, s, hg, _ => by simp [ChildList.get] at hg
  | .consNone rest, 0, c, s, hg, _ => by simp [ChildList.get] at hg
  | .consSome t rest, 0, c, s, hg, hd => by
    simp only [ChildList.get, Option.some.injEq] at hg
    subst hg
    simp only [ChildList.set, ChildList.digests, hd]
  | .consNone rest, i + 1, c, s, hg, hd => by
    simp only [ChildList.get] at hg
    simp only [ChildList.set, ChildList.digests]
    rw [ChildList.digests_set hs rest i c s hg hd]
  | .consSome t rest, i + 1, c, s, hg, hd => by
    simp only [ChildList.get] at hg
    simp only [ChildList.set, ChildList.digests]
    rw [ChildList.digests_set hs rest i c s hg hd]

/-- The `prune_key` walk-and-rebuild preserves the digest of the subtree it
rebuilds: the rebuilt spine re-attaches a stub reporting exactly the digest
of the removed subtree. -/
theorem pruneGo_digest (hs : HashScheme) (n : Nat) :
    ∀ (fuel : Nat) (cur : SubTree) (key : List U4) (plen : Nat) (s : SubTree),
      sizeOf cur ≤ fuel → cur.cacheOk hs = true →
      pruneGo hs n cur key plen = Except.ok (PruneRes.rebuilt s) →
      s.toDigest hs = cur.toDigest hs := by
  intro fuel
  induction fuel with
  | zero =>
    intro cur key plen s hsz _ _
    exact absurd hsz (by have := SubTree.sizeOf_pos cur; omega)
  | succ m ih =>
    intro cur key plen s hsz hc hok
    rw [pruneGo.eq_def] at hok
    dsimp only at hok
    by_cases hl : plen > n
    · rw [if_pos hl] at hok
      simp only [Except.ok.injEq, PruneRes.rebuilt.injEq] at hok
      subst hok
      simp [SubTree.toDigest]
    · rw [if_neg hl] at hok
      cases cur with
      | hash h => exact Except.noConfusion hok
      | leaf nib v => simp at hok
      | ext nib child =>
        dsimp only at hok
        have hcc : child.cacheOk hs = true := by
          simpa [SubTree.cacheOk] using hc
        cases hsp : stripPfx nib key with
        | none =>
          rw [hsp] at hok
          simp at hok
        | some rem =>
          rw [hsp] at hok
          dsimp only at hok
          cases hrec : pruneGo hs n child rem (plen + nib.length) with
          | error e => rw [hrec] at hok; simp [Except.map] at hok
          | ok r =>
            rw [hrec] at hok
            cases r with
            | orig => simp [Except.map] at hok
            | rebuilt s' =>
              simp only [Except.map, Except.ok.injEq,
                PruneRes.rebuilt.injEq] at hok
              subst hok
              have hszc : sizeOf child ≤ m := by
                simp only [SubTree.ext.sizeOf_spec] at hsz
                omega
              have hd := ih child rem (plen + nib.length) s' hszc hcc hrec
              simp [SubTree.toDigest, hd]
      | branch node =>
        have hcn : node.cacheOk hs = true := by
          simpa [SubTree.cacheOk] using hc
        cases key with
        | nil => exact Except.noConfusion hok
        | cons childIdx rem =>
          dsimp only at hok
          split at hok
          · next child heq =>
            cases hrec : pruneGo hs n child rem (plen + 1) with
            | error e => rw [hrec] at hok; simp [Except.map] at hok
            | ok r =>
              rw [hrec] at hok
              cases r with
              | orig => simp [Except.map] at hok
              | rebuilt s' =>
                simp only [Except.map, Except.ok.injEq,
                  PruneRes.rebuilt.injEq] at hok
                subst hok
                have hcc : child.cacheOk hs = true :=
                  BranchNode.cacheOk_getChild hs hcn heq
                have hszc : sizeOf child ≤ m := by
                  have := BranchNode.sizeOf_getChild heq
                  simp only [SubTree.branch.sizeOf_spec] at hsz
                  omega
                have hd := ih child rem (plen + 1) s' hszc hcc hrec
                have hset := ChildList.digests_set hs node.children
                  childIdx.val child s' heq hd
                simp only [SubTree.toDigest, BranchNode.toDigest]
                rw [hset, BranchNode.toDigest_of_cacheOk hs hcn]
          · next heq => simp at hok

/-- C1: `prune_key` preserves the trie digest: whenever it returns `Ok`, the
pruned trie's digest equals the original's (under the memo-cell invariant
every constructible trie satisfies). -/
theorem C1_prune_preserves_digest (hs : HashScheme) (trie : PartialTrie)
    (key : List U4) (n : Nat) (out : PartialTrie)
    (hc : trie.cacheOk hs = true)
    (hok : pruneKey hs trie key n = Except.ok out) :
    out.toDigest hs = trie.toDigest hs := by
  unfold pruneKey at hok
  cases hroot : trie.root with
  | none => rw [hroot] at hok; exact Except.noConfusion hok
  | some root =>
    rw [hroot] at hok
    dsimp only at hok
    have hcr : root.cacheOk hs = true := by
      unfold PartialTrie.cacheOk at hc
      rw [hroot] at hc
      exact hc
    by_cases hn : n = 0
    · rw [if_pos hn] at hok
      simp only [Except.ok.injEq] at hok
      subst hok
      simp [PartialTrie.fromRootHash, PartialTrie.toDigest, SubTree.toDigest,
        hroot]
    · rw [if_neg hn] at hok
      cases hgo : pruneGo hs n root key 0 with
      | error e => rw [hgo] at hok; simp [Except.map] at hok
      | ok r =>
        rw [hgo] at hok
        cases r with
        | orig =>
          simp only [Except.map, Except.ok.injEq] at hok
          subst hok
          rfl
        | rebuilt s =>
          simp only [Except.map, Except.ok.injEq] at hok
          subst hok
          have hd := pruneGo_digest hs n (sizeOf root) root key 0 s le_rfl
            hcr hgo
          simp [PartialTrie.fromSubtree, PartialTrie.toDigest, hroot, hd]


/-- C1 witness: pruning the concrete trie rebuilds the spine around a stub
and preserves the digest. -/
theorem C1_prune_preserves_digest_witness :
    PartialTrie.cacheOk demoHs demoTrie = true ∧
    pruneKey demoHs demoTrie [1, 0] 1 = Except.ok demoPruned ∧
    PartialTrie.toDigest demoHs demoPruned =
      PartialTrie.toDigest demoHs demoTrie :=
  have hcache : PartialTrie.cacheOk demoHs demoTrie = true := by
    simp [PartialTrie.cacheOk, demoTrie, SubTree.cacheOk, BranchNode.cacheOk,
      ChildList.cacheOk]
  have hprune : pruneKey demoHs demoTrie [1, 0] 1 = Except.ok demoPruned := by
    simp [pruneKey, pruneGo, demoTrie, demoPruned, stripPfx,
      BranchNode.getChild, BranchNode.children, ChildList.get, ChildList.set,
      SubTree.toDigest, BranchNode.toDigest, ChildList.digests, demoHs,
      Except.map, PartialTrie.fromSubtree]
  ⟨hcache, hprune,
   C1_prune_preserves_digest demoHs demoTrie [1, 0] 1 demoPruned hcache hprune⟩

mutual

/-- Rust `==` on subtrees is reflexive. -/
theorem subTreeBeqRefl : ∀ t : SubTree, t.beq t = true
  | .hash h => by simp [SubTree.beq]
  | .leaf nib v => by simp [SubTree.beq]
  | .ext nib c => by simp [SubTree.beq, subTreeBeqRefl c]
  | .branch b => by simpa [SubTree.beq] using branchNodeBeqRefl b

/-- Rust `==` on branch nodes is reflexive. -/
theorem branchNodeBeqRefl : ∀ b : BranchNode, b.beq b = true
  | .mk c h => by simpa [BranchNode.beq] using childListBeqRefl c

/-- Rust `==` on children arrays is reflexive. -/
theorem childListBeqRefl : ∀ c : ChildList, c.beq c = true
  | .nil => rfl
  | .consNone r => by simpa [ChildList.beq] using childListBeqRefl r
  | .consSome t r => by
    simp [ChildList.beq, subTreeBeqRefl t, childListBeqRefl r]

end

/-- A successful path lookup locates an entry of the diff. -/
theorem lookupPath_mem : ∀ (d : PartialTrieDiff) (p : List U4) (s : SubTree),
    lookupPath d p = some s → (p, s) ∈ d
  | [], p, s, h => by simp [lookupPath] at h
  | (q, t) :: rest, p, s, h => by
    simp only [lookupPath] at h
    by_cases hq : q = p
    · rw [if_pos hq] at h
      cases h
      subst hq
      exact List.mem_cons_self _ _
    · rw [if_neg hq] at h
      exact List.mem_cons_of_mem _ (lookupPath_mem rest p s h)

/-- An entry's path always looks up to something. -/
theorem mem_lookupPath_isSome : ∀ (d : PartialTrieDiff) (e : List U4 × SubTree),
    e ∈ d → (lookupPath d e.1).isSome = true
  | [], e, h => by cases h
  | (q, t) :: rest, e, h => by
    simp only [lookupPath]
    by_cases hq : q = e.1
    · rw [if_pos hq]; rfl
    · rw [if_neg hq]
      cases h with
      | head => exact absurd rfl hq
      | tail _ h' => exact mem_lookupPath_isSome rest e h'

/-- With distinct paths, each entry looks up to its own replacement. -/
theorem lookupPath_self_of_nodup :
    ∀ (d : PartialTrieDiff), (d.map Prod.fst).Nodup →
      ∀ (e : List U4 × SubTree), e ∈ d → lookupPath d e.1 = some e.2
  | [], _, e, h => by cases h
  | (q, t) :: rest, hnd, e, h => by
    simp only [List.map_cons, List.nodup_cons] at hnd
    cases h with
    | head => simp [lookupPath]
    | tail _ h' =>
      have hne : q ≠ e.1 := by
        intro hq
        exact hnd.1 (hq ▸ List.mem_map_of_mem Prod.fst h')
      simp only [lookupPath, if_neg hne]
      exact lookupPath_self_of_nodup rest hnd.2 e h'

/-- Lookup distributes over diff concatenation, left-biased. -/
theorem lookupPath_append : ∀ (d₁ d₂ : PartialTrieDiff) (p : List U4),
    lookupPath (d₁ ++ d₂) p =
      match lookupPath d₁ p with
      | some s => some s
      | none => lookupPath d₂ p
  | [], d₂, p => by simp [lookupPath]
  | (q, t) :: rest, d₂, p => by
    simp only [List.cons_append, lookupPath]
    by_cases hq : q = p
    · rw [if_pos hq, if_pos hq]
    · rw [if_neg hq, if_neg hq]
      exact lookupPath_append rest d₂ p

/-- Unfolding of path-disjointness to entries of the left diff. -/
theorem diffPathsDisjoint_left {d₁ d₂ : PartialTrieDiff}
    (h : diffPathsDisjoint d₁ d₂ = true) :
    ∀ e ∈ d₁, lookupPath d₂ e.1 = none := by
  intro e he
  have := List.all_eq_true.mp h e he
  simpa [Option.isNone_iff_eq_none] using this

/-- Path-disjointness also silences lookups of right-diff entries in the
left diff. -/
theorem diffPathsDisjoint_right {d₁ d₂ : PartialTrieDiff}
    (h : diffPathsDisjoint d₁ d₂ = true) :
    ∀ e ∈ d₂, lookupPath d₁ e.1 = none := by
  intro e he
  cases hl : lookupPath d₁ e.1 with
  | none => rfl
  | some s =>
    have hmem := lookupPath_mem d₁ e.1 s hl
    have hnone := diffPathsDisjoint_left h (e.1, s) hmem
    have hsome := mem_lookupPath_isSome d₂ e he
    rw [hnone] at hsome
    cases hsome

/-- Path-disjointness is symmetric. -/
theorem diffPathsDisjoint_symm {d₁ d₂ : PartialTrieDiff}
    (h : diffPathsDisjoint d₁ d₂ = true) :
    diffPathsDisjoint d₂ d₁ = true := by
  apply List.all_eq_true.mpr
  intro e he
  simp [Option.isNone_iff_eq_none, diffPathsDisjoint_right h e he]

/-- On path-disjoint diffs `merge_diff` succeeds with the plain union. -/
theorem mergeDiff_disjoint (hs : HashScheme) {d₁ d₂ : PartialTrieDiff}
    (h : diffPathsDisjoint d₁ d₂ = true) :
    mergeDiff hs d₁ d₂ = Except.ok (d₁ ++ d₂) := by
  unfold mergeDiff
  have hall : (d₂.all fun e =>
      match lookupPath d₁ e.1 with
      | none => true
      | some s => s.toDigest hs == e.2.toDigest hs) = true := by
    apply List.all_eq_true.mpr
    intro e he
    rw [diffPathsDisjoint_right h e he]
  rw [if_pos hall]
  have hfil : (d₂.filter fun e => (lookupPath d₁ e.1).isNone) = d₂ := by
    apply List.filter_eq_self.mpr
    intro e he
    simp [Option.isNone_iff_eq_none, diffPathsDisjoint_right h e he]
  rw [hfil]

/-- A diff with distinct paths is `==` to itself. -/
theorem diffBeq_refl_of_nodup {d : PartialTrieDiff}
    (hnd : (d.map Prod.fst).Nodup) : diffBeq d d = true := by
  unfold diffBeq
  rw [Bool.and_eq_true]
  constructor <;>
  · apply List.all_eq_true.mpr
    intro e he
    rw [lookupPath_self_of_nodup d hnd e he]
    exact subTreeBeqRefl e.2

/-- On path-disjoint diffs with distinct paths, the two union orders are
`==` as path-keyed mappings. -/
theorem diffBeq_append_comm {d₁ d₂ : PartialTrieDiff}
    (h₁ : (d₁.map Prod.fst).Nodup) (h₂ : (d₂.map Prod.fst).Nodup)
    (hd : diffPathsDisjoint d₁ d₂ = true) :
    diffBeq (d₁ ++ d₂) (d₂ ++ d₁) = true := by
  unfold diffBeq
  rw [Bool.and_eq_true]
  constructor
  · apply List.all_eq_true.mpr
    intro e he
    rw [lookupPath_append]
    rcases List.mem_append.mp he with he₁ | he₂
    · rw [diffPathsDisjoint_left hd e he₁,
        lookupPath_self_of_nodup d₁ h₁ e he₁]
      exact subTreeBeqRefl e.2
    · rw [lookupPath_self_of_nodup d₂ h₂ e he₂]
      exact subTreeBeqRefl e.2
  · apply List.all_eq_true.mpr
    intro e he
    rw [lookupPath_append]
    rcases List.mem_append.mp he with he₂ | he₁
    · rw [diffPathsDisjoint_right hd e he₂,
        lookupPath_self_of_nodup d₂ h₂ e he₂]
      exact subTreeBeqRefl e.2
    · rw [lookupPath_self_of_nodup d₁ h₁ e he₁]
      exact subTreeBeqRefl e.2

/-- Replacing one key's value leaves other keys' lookups unchanged. -/
theorem lookupAcc_replaceAcc_ne :
    ∀ (m : List (Nat × AccountTrieDiff)) (k addr : Nat) (v : AccountTrieDiff),
      k ≠ addr → lookupAcc (replaceAcc m k v) addr = lookupAcc m addr
  | [], _, _, _, _ => rfl
  | (a, w) :: rest, k, addr, v, hne => by
    simp only [replaceAcc]
    by_cases ha : a = k
    · rw [if_pos ha]
      simp only [lookupAcc]
      rw [if_neg (by omega), if_neg (by omega)]
    · rw [if_neg ha]
      simp only [lookupAcc]
      by_cases ha' : a = addr
      · rw [if_pos ha', if_pos ha']
      · rw [if_neg ha', if_neg ha']
        exact lookupAcc_replaceAcc_ne rest k addr v hne

/-- Replacing a present key's value is observed by its lookup. -/
theorem lookupAcc_replaceAcc_eq :
    ∀ (m : List (Nat × AccountTrieDiff)) (k : Nat) (cur v : AccountTrieDiff),
      lookupAcc m k = some cur → lookupAcc (replaceAcc m k v) k = some v
  | [], k, cur, v, h => by simp [lookupAcc] at h
  | (a, w) :: rest, k, cur, v, h => by
    simp only [lookupAcc] at h
    simp only [replaceAcc]
    by_cases ha : a = k
    · rw [if_pos ha]
      simp [lookupAcc, ha]
    · rw [if_neg ha]
      rw [if_neg ha] at h
      simp only [lookupAcc, if_neg ha]
      exact lookupAcc_replaceAcc_eq rest k cur v h

/-- Replacement does not change the key list. -/
theorem replaceAcc_keys :
    ∀ (m : List (Nat × AccountTrieDiff)) (k : Nat) (v : AccountTrieDiff),
      (replaceAcc m k v).map Prod.fst = m.map Prod.fst
  | [], _, _ => rfl
  | (a, w) :: rest, k, v => by
    simp only [replaceAcc]
    by_cases ha : a = k
    · rw [if_pos ha]
      simp
    · rw [if_neg ha]
      simp [replaceAcc_keys rest k v]

/-- Lookup after appending a fresh binding. -/
theorem lookupAcc_append_single :
    ∀ (m : List (Nat × AccountTrieDiff)) (k addr : Nat) (v : AccountTrieDiff),
      lookupAcc (m ++ [(k, v)]) addr =
        match lookupAcc m addr with
        | some x => some x
        | none => if k = addr then some v else none
  | [], k, addr, v => by simp [lookupAcc]
  | (a, w) :: rest, k, addr, v => by
    simp only [List.cons_append, lookupAcc]
    by_cases ha : a = addr
    · rw [if_pos ha, if_pos ha]
    · rw [if_neg ha, if_neg ha]
      exact lookupAcc_append_single rest k addr v

/-- A key is present iff its lookup succeeds. -/
theorem lookupAcc_isSome_iff_mem :
    ∀ (m : List (Nat × AccountTrieDiff)) (k : Nat),
      (lookupAcc m k).isSome = true ↔ k ∈ m.map Prod.fst
  | [], k => by simp [lookupAcc]
  | (a, w) :: rest, k => by
    simp only [lookupAcc, List.map_cons, List.mem_cons]
    by_cases ha : a = k
    · rw [if_pos ha]
      simp [ha]
    · rw [if_neg ha]
      rw [lookupAcc_isSome_iff_mem rest k]
      constructor
      · exact fun h => Or.inr h
      · rintro (h | h)
        · exact absurd h.symm ha
        · exact h

/-- With distinct keys, each entry looks up to its own value. -/
theorem lookupAcc_self_of_nodup :
    ∀ (m : List (Nat × AccountTrieDiff)), (m.map Prod.fst).Nodup →
      ∀ (e : Nat × AccountTrieDiff), e ∈ m → lookupAcc m e.1 = some e.2
  | [], _, e, h => by cases h
  | (a, w) :: rest, hnd, e, h => by
    simp only [List.map_cons, List.nodup_cons] at hnd
    cases h with
    | head => simp [lookupAcc]
    | tail _ h' =>
      have hne : a ≠ e.1 := by
        intro ha
        exact hnd.1 (ha ▸ List.mem_map_of_mem Prod.fst h')
      simp only [lookupAcc, if_neg hne]
      exact lookupAcc_self_of_nodup rest hnd.2 e h'

/-- A successful `merge_acc_trie_diff` implies its two debug assertions. -/
theorem mergeAccTrieDiff_agree {hs : HashScheme} {l r m : AccountTrieDiff}
    (h : mergeAccTrieDiff hs l r = Except.ok m) :
    l.nonce = r.nonce ∧ l.codeHash = r.codeHash := by
  unfold mergeAccTrieDiff at h
  by_cases hn : l.nonce = r.nonce
  · rw [if_pos hn] at h
    by_cases hcz : l.codeHash = r.codeHash
    · exact ⟨hn, hcz⟩
    · rw [if_neg hcz] at h
      cases h
  · rw [if_neg hn] at h
    cases h

/-- On agreeing metadata and path-disjoint state diffs,
`merge_acc_trie_diff` succeeds with the left-biased union. -/
theorem mergeAccTrieDiff_disjoint (hs : HashScheme) {l r : AccountTrieDiff}
    (hn : l.nonce = r.nonce) (hcz : l.codeHash = r.codeHash)
    (hd : diffPathsDisjoint l.stateTrieDiff r.stateTrieDiff = true) :
    mergeAccTrieDiff hs l r =
      Except.ok ⟨l.nonce, l.codeHash, l.stateTrieDiff ++ r.stateTrieDiff⟩ := by
  unfold mergeAccTrieDiff
  rw [if_pos hn, if_pos hcz, mergeDiff_disjoint hs hd]
  rfl

/-- Addresses absent from the rhs map keep their lhs binding through the
merge fold. -/
theorem mergeAccMapsGo_lookup_notin (hs : HashScheme) :
    ∀ (r acc out : List (Nat × AccountTrieDiff)) (addr : Nat),
      lookupAcc r addr = none → mergeAccMapsGo hs acc r = Except.ok out →
      lookupAcc out addr = lookupAcc acc addr := by
  intro r
  induction r with
  | nil =>
    intro acc out addr _ hok
    simp only [mergeAccMapsGo, Except.ok.injEq] at hok
    rw [← hok]
  | cons e rest ih =>
    obtain ⟨k, v⟩ := e
    intro acc out addr hnone hok
    simp only [lookupAcc] at hnone
    by_cases hk : k = addr
    · rw [if_pos hk] at hnone
      cases hnone
    · rw [if_neg hk] at hnone
      simp only [mergeAccMapsGo] at hok
      cases hacck : lookupAcc acc k with
      | some cur =>
        rw [hacck] at hok
        dsimp only at hok
        cases hm : mergeAccTrieDiff hs cur v with
        | error e => rw [hm] at hok; cases hok
        | ok merged =>
          rw [hm] at hok
          dsimp only at hok
          rw [ih (replaceAcc acc k merged) out addr hnone hok]
          exact lookupAcc_replaceAcc_ne acc k addr merged hk
      | none =>
        rw [hacck] at hok
        dsimp only at hok
        rw [ih (acc ++ [(k, v)]) out addr hnone hok,
          lookupAcc_append_single]
        cases lookupAcc acc addr with
        | some x => rfl
        | none => simp [hk]

/-- Addresses present in both maps come out of the merge fold bound to the
merged per-account diff (which must therefore have succeeded). -/
theorem mergeAccMapsGo_lookup_common (hs : HashScheme) :
    ∀ (r acc out : List (Nat × AccountTrieDiff)) (addr : Nat)
      (da db : AccountTrieDiff),
      (r.map Prod.fst).Nodup →
      lookupAcc acc addr = some da → lookupAcc r addr = some db →
      mergeAccMapsGo hs acc r = Except.ok out →
      ∃ m, mergeAccTrieDiff hs da db = Except.ok m ∧
        lookupAcc out addr = some m := by
  intro r
  induction r with
  | nil =>
    intro acc out addr da db _ _ hr _
    simp [lookupAcc] at hr
  | cons e rest ih =>
    obtain ⟨k, v⟩ := e
    intro acc out addr da db hnd hacc hr hok
    simp only [List.map_cons, List.nodup_cons] at hnd
    obtain ⟨hknotin, hndrest⟩ := hnd
    simp only [lookupAcc] at hr
    simp only [mergeAccMapsGo] at hok
    by_cases hk : k = addr
    · rw [if_pos hk] at hr
      cases hr
      rw [hk, hacc] at hok
      dsimp only at hok
      cases hm : mergeAccTrieDiff hs da v with
      | error e => rw [hm] at hok; cases hok
      | ok merged =>
        rw [hm] at hok
        dsimp only at hok
        refine ⟨merged, rfl, ?_⟩
        have hrest : lookupAcc rest addr = none := by
          cases hlr : lookupAcc rest addr with
          | none => rfl
          | some x =>
            have := (lookupAcc_isSome_iff_mem rest addr).mp (by simp [hlr])
            exact absurd (hk ▸ this) hknotin
        rw [mergeAccMapsGo_lookup_notin hs rest (replaceAcc acc addr merged)
          out addr hrest hok]
        exact lookupAcc_replaceAcc_eq acc addr da merged hacc
    · rw [if_neg hk] at hr
      cases hacck : lookupAcc acc k with
      | some cur =>
        rw [hacck] at hok
        dsimp only at hok
        cases hm : mergeAccTrieDiff hs cur v with
        | error e => rw [hm] at hok; cases hok
        | ok merged =>
          rw [hm] at hok
          dsimp only at hok
          exact ih (replaceAcc acc k merged) out addr da db hndrest
            (by rw [lookupAcc_replaceAcc_ne acc k addr merged hk]; exact hacc)
            hr hok
      | none =>
        rw [hacck] at hok
        dsimp only at hok
        apply ih (acc ++ [(k, v)]) out addr da db hndrest ?_ hr hok
        rw [lookupAcc_append_single, hacc]

/-- Addresses present only in the rhs map come out bound to the rhs
per-account diff. -/
theorem mergeAccMapsGo_lookup_right (hs : HashScheme) :
    ∀ (r acc out : List (Nat × AccountTrieDiff)) (addr : Nat)
      (db : AccountTrieDiff),
      (r.map Prod.fst).Nodup →
      lookupAcc acc addr = none → lookupAcc r addr = some db →
      mergeAccMapsGo hs acc r = Except.ok out →
      lookupAcc out addr = some db := by
  intro r
  induction r with
  | nil =>
    intro acc out addr db _ _ hr _
    simp [lookupAcc] at hr
  | cons e rest ih =>
    obtain ⟨k, v⟩ := e
    intro acc out addr db hnd hacc hr hok
    simp only [List.map_cons, List.nodup_cons] at hnd
    obtain ⟨hknotin, hndrest⟩ := hnd
    simp only [lookupAcc] at hr
    simp only [mergeAccMapsGo] at hok
    by_cases hk : k = addr
    · rw [if_pos hk] at hr
      cases hr
      rw [hk, hacc] at hok
      dsimp only at hok
      have hrest : lookupAcc rest addr = none := by
        cases hlr : lookupAcc rest addr with
        | none => rfl
        | some x =>
          have := (lookupAcc_isSome_iff_mem rest addr).mp (by simp [hlr])
          exact absurd (hk ▸ this) hknotin
      rw [mergeAccMapsGo_lookup_notin hs rest (acc ++ [(addr, v)]) out addr
        hrest hok, lookupAcc_append_single, hacc]
      simp
    · rw [if_neg hk] at hr
      cases hacck : lookupAcc acc k with
      | some cur =>
        rw [hacck] at hok
        dsimp only at hok
        cases hm : mergeAccTrieDiff hs cur v with
        | error e => rw [hm] at hok; cases hok
        | ok merged =>
          rw [hm] at hok
          dsimp only at hok
          exact ih (replaceAcc acc k merged) out addr db hndrest
            (by rw [lookupAcc_replaceAcc_ne acc k addr merged hk]; exact hacc)
            hr hok
      | none =>
        rw [hacck] at hok
        dsimp only at hok
        apply ih (acc ++ [(k, v)]) out addr db hndrest ?_ hr hok
        rw [lookupAcc_append_single, hacc]
        simp [hk]

/-- The merge fold keeps map keys distinct (occupied entries are replaced in
place, vacant entries append a fresh key). -/
theorem mergeAccMapsGo_nodup (hs : HashScheme) :
    ∀ (r acc out : List (Nat × AccountTrieDiff)),
      (acc.map Prod.fst).Nodup → mergeAccMapsGo hs acc r = Except.ok out →
      (out.map Prod.fst).Nodup := by
  intro r
  induction r with
  | nil =>
    intro acc out hnd hok
    simp only [mergeAccMapsGo, Except.ok.injEq] at hok
    rw [← hok]
    exact hnd
  | cons e rest ih =>
    obtain ⟨k, v⟩ := e
    intro acc out hnd hok
    simp only [mergeAccMapsGo] at hok
    cases hacck : lookupAcc acc k with
    | some cur =>
      rw [hacck] at hok
      dsimp only at hok
      cases hm : mergeAccTrieDiff hs cur v with
      | error e => rw [hm] at hok; cases hok
      | ok merged =>
        rw [hm] at hok
        dsimp only at hok
        apply ih (replaceAcc acc k merged) out ?_ hok
        rw [replaceAcc_keys]
        exact hnd
    | none =>
      rw [hacck] at hok
      dsimp only at hok
      apply ih (acc ++ [(k, v)]) out ?_ hok
      rw [List.map_append]
      rw [List.nodup_append]
      refine ⟨hnd, List.nodup_singleton k, ?_⟩
      intro x hx hxk
      simp only [List.map_cons, List.map_nil, List.mem_singleton] at hxk
      subst hxk
      have : (lookupAcc acc x).isSome = true :=
        (lookupAcc_isSome_iff_mem acc x).mpr hx
      rw [hacck] at this
      cases this

/-- When every address common to the accumulator and the rhs map admits a
successful per-account merge, the fold succeeds. -/
theorem mergeAccMapsGo_ok (hs : HashScheme) :
    ∀ (r acc : List (Nat × AccountTrieDiff)),
      (r.map Prod.fst).Nodup →
      (∀ addr da db, lookupAcc acc addr = some da →
        lookupAcc r addr = some db →
        ∃ m, mergeAccTrieDiff hs da db = Except.ok m) →
      ∃ out, mergeAccMapsGo hs acc r = Except.ok out := by
  intro r
  induction r with
  | nil =>
    intro acc _ _
    exact ⟨acc, rfl⟩
  | cons e rest ih =>
    obtain ⟨k, v⟩ := e
    intro acc hnd hcomm
    simp only [List.map_cons, List.nodup_cons] at hnd
    obtain ⟨hknotin, hndrest⟩ := hnd
    have hrestk : lookupAcc rest k = none := by
      cases hlr : lookupAcc rest k with
      | none => rfl
      | some x =>
        have := (lookupAcc_isSome_iff_mem rest k).mp (by simp [hlr])
        exact absurd this hknotin
    cases hacck : lookupAcc acc k with
    | some cur =>
      obtain ⟨m, hm⟩ := hcomm k cur v hacck (by simp [lookupAcc])
      have hIH : ∀ addr da db, lookupAcc (replaceAcc acc k m) addr = some da →
          lookupAcc rest addr = some db →
          ∃ mm, mergeAccTrieDiff hs da db = Except.ok mm := by
        intro addr da db hda hdb
        have hne : k ≠ addr := by
          intro hkaddr
          rw [hkaddr] at hrestk
          rw [hrestk] at hdb
          cases hdb
        rw [lookupAcc_replaceAcc_ne acc k addr m hne] at hda
        refine hcomm addr da db hda ?_
        simp only [lookupAcc, if_neg hne]
        exact hdb
      obtain ⟨out, hout⟩ := ih (replaceAcc acc k m) hndrest hIH
      refine ⟨out, ?_⟩
      simp only [mergeAccMapsGo]
      rw [hacck]
      dsimp only
      rw [hm]
      dsimp only
      exact hout
    | none =>
      have hIH : ∀ addr da db, lookupAcc (acc ++ [(k, v)]) addr = some da →
          lookupAcc rest addr = some db →
          ∃ mm, mergeAccTrieDiff hs da db = Except.ok mm := by
        intro addr da db hda hdb
        have hne : k ≠ addr := by
          intro hkaddr
          rw [hkaddr] at hrestk
          rw [hrestk] at hdb
          cases hdb
        rw [lookupAcc_append_single] at hda
        refine hcomm addr da db ?_ ?_
        · cases hla : lookupAcc acc addr with
          | some x => rw [hla] at hda; exact hda
          | none =>
            rw [hla] at hda
            dsimp only at hda
            rw [if_neg hne] at hda
            cases hda
        · simp only [lookupAcc, if_neg hne]
          exact hdb
      obtain ⟨out, hout⟩ := ih (acc ++ [(k, v)]) hndrest hIH
      refine ⟨out, ?_⟩
      simp only [mergeAccMapsGo]
      rw [hacck]
      dsimp only
      exact hout

/-- A diff replacing the root path with an opaque stub of the leaf's
digest (`demoHs.leafHash [] 7 = 8`). -/
def cexDiffA : TxTrieDiff := ⟨[([], SubTree.hash 8)], []⟩

/-- A diff replacing the root path with the materialized leaf itself: same
digest at the same path, different node. -/
def cexDiffB : TxTrieDiff := ⟨[([], SubTree.leaf [] 7)], []⟩

/-- C4 counterexample: `cexDiffA` and `cexDiffB` have no per-account diffs
at all (so the per-account state-trie diffs are trivially path-disjoint),
both merge orders succeed — the shared main-trie path carries digest-equal
replacements — yet the two results differ under Rust `==`, because the merge
is left-biased and keeps the stub in one order and the materialized leaf in
the other. -/
theorem C4_counterexample :
    (∀ addr da db, lookupAcc cexDiffA.accTrieDiffs addr = some da →
      lookupAcc cexDiffB.accTrieDiffs addr = some db →
      diffPathsDisjoint da.stateTrieDiff db.stateTrieDiff = true) ∧
    mergeTxTrieDiff demoHs cexDiffA cexDiffB =
      Except.ok ⟨[([], SubTree.hash 8)], []⟩ ∧
    mergeTxTrieDiff demoHs cexDiffB cexDiffA =
      Except.ok ⟨[([], SubTree.leaf [] 7)], []⟩ ∧
    txDiffBeq ⟨[([], SubTree.hash 8)], []⟩ ⟨[([], SubTree.leaf [] 7)], []⟩ =
      false := by
  refine ⟨?_, ?_, ?_, ?_⟩
  · intro addr da db h
    simp [cexDiffA, lookupAcc] at h
  · simp [mergeTxTrieDiff, mergeAccMapsGo, mergeDiff, cexDiffA, cexDiffB,
      lookupPath, SubTree.toDigest, demoHs]
  · simp [mergeTxTrieDiff, mergeAccMapsGo, mergeDiff, cexDiffA, cexDiffB,
      lookupPath, SubTree.toDigest, demoHs]
  · simp [txDiffBeq, diffBeq, accMapBeq, lookupPath, lookupAcc, SubTree.beq]

/-- `accKeysNodup` unfolded. -/
theorem accKeysNodup_eq {m : List (Nat × AccountTrieDiff)} :
    accKeysNodup m = true ↔ (m.map Prod.fst).Nodup := by
  simp [accKeysNodup]

/-- `diffKeysNodup` unfolded. -/
theorem diffKeysNodup_eq {d : PartialTrieDiff} :
    diffKeysNodup d = true ↔ (d.map Prod.fst).Nodup := by
  simp [diffKeysNodup]

/-- `==` on account diffs is reflexive for diffs with distinct paths. -/
theorem accBeq_refl_of_nodup {v : AccountTrieDiff}
    (h : (v.stateTrieDiff.map Prod.fst).Nodup) : accBeq v v = true := by
  simp [accBeq, diffBeq_refl_of_nodup h]

/-- The two orders of a per-account merge are `==` when the metadata agrees
and the state diffs are path-disjoint with distinct paths. -/
theorem accBeq_merged {da db : AccountTrieDiff} (hn : da.nonce = db.nonce)
    (hcz : da.codeHash = db.codeHash)
    (hnd₁ : (da.stateTrieDiff.map Prod.fst).Nodup)
    (hnd₂ : (db.stateTrieDiff.map Prod.fst).Nodup)
    (hd : diffPathsDisjoint da.stateTrieDiff db.stateTrieDiff = true) :
    accBeq ⟨da.nonce, da.codeHash, da.stateTrieDiff ++ db.stateTrieDiff⟩
      ⟨db.nonce, db.codeHash, db.stateTrieDiff ++ da.stateTrieDiff⟩ = true := by
  simp [accBeq, hn, hcz, diffBeq_append_comm hnd₁ hnd₂ hd]

/-- Pointwise-equivalent maps with distinct keys are `==` as maps. -/
theorem accMapBeq_of_pointwise {m₁ m₂ : List (Nat × AccountTrieDiff)}
    (h₁ : (m₁.map Prod.fst).Nodup) (h₂ : (m₂.map Prod.fst).Nodup)
    (hdom : ∀ addr, (lookupAcc m₁ addr).isSome = (lookupAcc m₂ addr).isSome)
    (h : ∀ addr v₁ v₂, lookupAcc m₁ addr = some v₁ →
      lookupAcc m₂ addr = some v₂ →
      accBeq v₁ v₂ = true ∧ accBeq v₂ v₁ = true) :
    accMapBeq m₁ m₂ = true := by
  unfold accMapBeq
  rw [Bool.and_eq_true]
  constructor
  · apply List.all_eq_true.mpr
    intro e he
    have hself := lookupAcc_self_of_nodup m₁ h₁ e he
    have hs₂ : (lookupAcc m₂ e.1).isSome = true := by
      rw [← hdom e.1, hself]
      rfl
    cases hl₂ : lookupAcc m₂ e.1 with
    | none => rw [hl₂] at hs₂; cases hs₂
    | some v₂ => exact (h e.1 e.2 v₂ hself hl₂).1
  · apply List.all_eq_true.mpr
    intro e he
    have hself := lookupAcc_self_of_nodup m₂ h₂ e he
    have hs₁ : (lookupAcc m₁ e.1).isSome = true := by
      rw [hdom e.1, hself]
      rfl
    cases hl₁ : lookupAcc m₁ e.1 with
    | none => rw [hl₁] at hs₁; cases hs₁
    | some v₁ => exact (h e.1 v₁ e.2 hl₁ hself).2

/-- C4 (amended): (i) a successful `merge_tx_trie_diff` implies that for
every address present in both diffs the `nonce` and `code_hash` fields agree
(the two `debug_assert_eq!`); (ii) when additionally the per-account
state-trie diffs of common addresses *and the main-trie diffs* are
path-disjoint, the two merge orders succeed and produce `==` results — the
extra main-trie condition is forced by the counterexample, where a shared
main-trie path holds digest-equal but structurally different replacements
and the left-biased merge keeps a different one in each order.  (Key-set and
path-set distinctness hypotheses state the `HashMap`/mapping well-formedness
of the association-list model.) -/
theorem C4_merge_tx_trie_diff (hs : HashScheme) :
    (∀ (a b m : TxTrieDiff), accKeysNodup b.accTrieDiffs = true →
      mergeTxTrieDiff hs a b = Except.ok m →
      ∀ addr da db, lookupAcc a.accTrieDiffs addr = some da →
        lookupAcc b.accTrieDiffs addr = some db →
        da.nonce = db.nonce ∧ da.codeHash = db.codeHash) ∧
    (∀ (a b : TxTrieDiff),
      accKeysNodup a.accTrieDiffs = true →
      accKeysNodup b.accTrieDiffs = true →
      diffKeysNodup a.mainTrieDiff = true →
      diffKeysNodup b.mainTrieDiff = true →
      (∀ addr d, lookupAcc a.accTrieDiffs addr = some d →
        diffKeysNodup d.stateTrieDiff = true) →
      (∀ addr d, lookupAcc b.accTrieDiffs addr = some d →
        diffKeysNodup d.stateTrieDiff = true) →
      (∀ addr da db, lookupAcc a.accTrieDiffs addr = some da →
        lookupAcc b.accTrieDiffs addr = some db →
        da.nonce = db.nonce ∧ da.codeHash = db.codeHash ∧
          diffPathsDisjoint da.stateTrieDiff db.stateTrieDiff = true) →
      diffPathsDisjoint a.mainTrieDiff b.mainTrieDiff = true →
      ∃ ra rb, mergeTxTrieDiff hs a b = Except.ok ra ∧
        mergeTxTrieDiff hs b a = Except.ok rb ∧ txDiffBeq ra rb = true) := by
  constructor
  · intro a b m hbnd hok addr da db hda hdb
    unfold mergeTxTrieDiff at hok
    cases hacc : mergeAccMapsGo hs a.accTrieDiffs b.accTrieDiffs with
    | error e => rw [hacc] at hok; cases hok
    | ok accs =>
      obtain ⟨mm, hmm, _⟩ := mergeAccMapsGo_lookup_common hs b.accTrieDiffs
        a.accTrieDiffs accs addr da db (accKeysNodup_eq.mp hbnd) hda hdb hacc
      exact mergeAccTrieDiff_agree hmm
  · intro a b hand hbnd hmand hmbnd hastnd hbstnd hagree hmain
    have handN := accKeysNodup_eq.mp hand
    have hbndN := accKeysNodup_eq.mp hbnd
    have hmainBA := diffPathsDisjoint_symm hmain
    obtain ⟨outAB, hAB⟩ := mergeAccMapsGo_ok hs b.accTrieDiffs a.accTrieDiffs
      hbndN (fun addr da db hda hdb =>
        have h := hagree addr da db hda hdb
        ⟨_, mergeAccTrieDiff_disjoint hs h.1 h.2.1 h.2.2⟩)
    obtain ⟨outBA, hBA⟩ := mergeAccMapsGo_ok hs a.accTrieDiffs b.accTrieDiffs
      handN (fun addr db da hdb hda =>
        have h := hagree addr da db hda hdb
        ⟨_, mergeAccTrieDiff_disjoint hs h.1.symm h.2.1.symm
          (diffPathsDisjoint_symm h.2.2)⟩)
    refine ⟨⟨a.mainTrieDiff ++ b.mainTrieDiff, outAB⟩,
      ⟨b.mainTrieDiff ++ a.mainTrieDiff, outBA⟩, ?_, ?_, ?_⟩
    · unfold mergeTxTrieDiff
      rw [hAB]
      dsimp only
      rw [mergeDiff_disjoint hs hmain]
    · unfold mergeTxTrieDiff
      rw [hBA]
      dsimp only
      rw [mergeDiff_disjoint hs hmainBA]
    · unfold txDiffBeq
      rw [Bool.and_eq_true]
      constructor
      · exact diffBeq_append_comm (diffKeysNodup_eq.mp hmand)
          (diffKeysNodup_eq.mp hmbnd) hmain
      · apply accMapBeq_of_pointwise
          (mergeAccMapsGo_nodup hs b.accTrieDiffs a.accTrieDiffs outAB handN hAB)
          (mergeAccMapsGo_nodup hs a.accTrieDiffs b.accTrieDiffs outBA hbndN hBA)
        · intro addr
          cases hla : lookupAcc a.accTrieDiffs addr with
          | some da =>
            cases hlb : lookupAcc b.accTrieDiffs addr with
            | some db =>
              obtain ⟨m₁, _, hv₁⟩ := mergeAccMapsGo_lookup_common hs
                b.accTrieDiffs a.accTrieDiffs outAB addr da db hbndN hla hlb hAB
              obtain ⟨m₂, _, hv₂⟩ := mergeAccMapsGo_lookup_common hs
                a.accTrieDiffs b.accTrieDiffs outBA addr db da handN hlb hla hBA
              rw [hv₁, hv₂]
              rfl
            | none =>
              have h₁ := mergeAccMapsGo_lookup_notin hs b.accTrieDiffs
                a.accTrieDiffs outAB addr hlb hAB
              have h₂ := mergeAccMapsGo_lookup_right hs a.accTrieDiffs
                b.accTrieDiffs outBA addr da handN hlb hla hBA
              rw [h₁, h₂, hla]
          | none =>
            cases hlb : lookupAcc b.accTrieDiffs addr with
            | some db =>
              have h₁ := mergeAccMapsGo_lookup_right hs b.accTrieDiffs
                a.accTrieDiffs outAB addr db hbndN hla hlb hAB
              have h₂ := mergeAccMapsGo_lookup_notin hs a.accTrieDiffs
                b.accTrieDiffs outBA addr hla hBA
              rw [h₁, h₂, hlb]
            | none =>
              have h₁ := mergeAccMapsGo_lookup_notin hs b.accTrieDiffs
                a.accTrieDiffs outAB addr hlb hAB
              have h₂ := mergeAccMapsGo_lookup_notin hs a.accTrieDiffs
                b.accTrieDiffs outBA addr hla hBA
              rw [h₁, h₂, hla, hlb]
        · intro addr v₁ v₂ hv₁ hv₂
          cases hla : lookupAcc a.accTrieDiffs addr with
          | some da =>
            cases hlb : lookupAcc b.accTrieDiffs addr with
            | some db =>
              obtain ⟨hn, hcz, hdisj⟩ := hagree addr da db hla hlb
              have hndA := diffKeysNodup_eq.mp (hastnd addr da hla)
              have hndB := diffKeysNodup_eq.mp (hbstnd addr db hlb)
              obtain ⟨m₁, hm₁, hv₁'⟩ := mergeAccMapsGo_lookup_common hs
                b.accTrieDiffs a.accTrieDiffs outAB addr da db hbndN hla hlb hAB
              obtain ⟨m₂, hm₂, hv₂'⟩ := mergeAccMapsGo_lookup_common hs
                a.accTrieDiffs b.accTrieDiffs outBA addr db da handN hlb hla hBA
              rw [mergeAccTrieDiff_disjoint hs hn hcz hdisj] at hm₁
              rw [mergeAccTrieDiff_disjoint hs hn.symm hcz.symm
                (diffPathsDisjoint_symm hdisj)] at hm₂
              cases hm₁
              cases hm₂
              rw [hv₁] at hv₁'
              rw [hv₂] at hv₂'
              cases hv₁'
              cases hv₂'
              exact ⟨accBeq_merged hn hcz hndA hndB hdisj,
                accBeq_merged hn.symm hcz.symm hndB hndA
                  (diffPathsDisjoint_symm hdisj)⟩
            | none =>
              have h₁ := mergeAccMapsGo_lookup_notin hs b.accTrieDiffs
                a.accTrieDiffs outAB addr hlb hAB
              have h₂ := mergeAccMapsGo_lookup_right hs a.accTrieDiffs
                b.accTrieDiffs outBA addr da handN hlb hla hBA
              rw [hv₁, hla] at h₁
              rw [hv₂] at h₂
              injection h₁ with e₁
              injection h₂ with e₂
              rw [e₁, e₂]
              have hnd := diffKeysNodup_eq.mp (hastnd addr da hla)
              exact ⟨accBeq_refl_of_nodup hnd, accBeq_refl_of_nodup hnd⟩
          | none =>
            cases hlb : lookupAcc b.accTrieDiffs addr with
            | some db =>
              have h₁ := mergeAccMapsGo_lookup_right hs b.accTrieDiffs
                a.accTrieDiffs outAB addr db hbndN hla hlb hAB
              have h₂ := mergeAccMapsGo_lookup_notin hs a.accTrieDiffs
                b.accTrieDiffs outBA addr hla hBA
              rw [hv₁] at h₁
              rw [hv₂, hlb] at h₂
              injection h₁ with e₁
              injection h₂ with e₂
              rw [e₁, e₂]
              have hnd := diffKeysNodup_eq.mp (hbstnd addr db hlb)
              exact ⟨accBeq_refl_of_nodup hnd, accBeq_refl_of_nodup hnd⟩
            | none =>
              have h₁ := mergeAccMapsGo_lookup_notin hs b.accTrieDiffs
                a.accTrieDiffs outAB addr hlb hAB
              rw [hv₁, hla] at h₁
              cases h₁

/-- A concrete diff touching main-trie path `[0]` and, for account 10,
state-trie path `[0]`. -/
def demoDiffA : TxTrieDiff :=
  ⟨[([0], SubTree.hash 1)], [(10, ⟨some 1, some 2, [([0], SubTree.hash 3)]⟩)]⟩

/-- A concrete diff touching main-trie path `[1]` and, for account 10,
state-trie path `[1]`: agreeing metadata, disjoint paths. -/
def demoDiffB : TxTrieDiff :=
  ⟨[([1], SubTree.hash 2)], [(10, ⟨some 1, some 2, [([1], SubTree.hash 4)]⟩)]⟩

/-- C4 witness: on the concrete disjoint diffs both merge orders succeed
with `==` results. -/
theorem C4_merge_tx_trie_diff_witness :
    ∃ ra rb, mergeTxTrieDiff demoHs demoDiffA demoDiffB = Except.ok ra ∧
      mergeTxTrieDiff demoHs demoDiffB demoDiffA = Except.ok rb ∧
      txDiffBeq ra rb = true :=
  (C4_merge_tx_trie_diff demoHs).2 demoDiffA demoDiffB
    (by decide) (by decide) (by decide) (by decide)
    (by
      intro addr d h
      simp only [demoDiffA, lookupAcc] at h
      split at h
      · cases h; decide
      · cases h)
    (by
      intro addr d h
      simp only [demoDiffB, lookupAcc] at h
      split at h
      · cases h; decide
      · cases h)
    (by
      intro addr da db ha hb
      simp only [demoDiffA, lookupAcc] at ha
      simp only [demoDiffB, lookupAcc] at hb
      split at ha
      · next h10 =>
          cases ha
          rw [if_pos h10] at hb
          cases hb
          exact ⟨rfl, rfl, by decide⟩
      · next h10 => cases ha)
    (by decide)
